import Mathlib

/-!
Verification of the identifier-picking module (sandbox/grist/identifiers.py).

Python strings are modelled as lists of Unicode code points (`PyStr := List Nat`),
which matches the Python 3 view of a string as a sequence of code points.
The functions of the standard library module `unicodedata` (character category,
canonical name, NFKD/NFC normalization, combining class) and the string methods
`upper`, `lower`, `capitalize` are modelled on a documented finite fragment of
the Unicode database: ASCII, a list of Latin-1 accented letters (including
Å and å), the CJK unified ideograph block, the Arabic-Indic decimal digits,
and U+212B ANGSTROM SIGN (a letter of category Lu whose NFC normalization is
the singleton recomposition to U+00C5).  On this fragment the
model agrees with the real Unicode database; code points outside the fragment
are treated as nameless-free generic characters that are not letters and not
digits.  All algorithmic definitions are translated line by line from the
source module.
-/

/-- A Python string: a sequence of Unicode code points. -/
abbrev PyStr := List Nat

/-- Build a `PyStr` from a Lean string literal (code points of its characters). -/
def pystr (s : String) : PyStr := s.data.map Char.toNat

/-- ASCII uppercase letter A-Z. -/
def isAsciiUpperN (n : Nat) : Bool := decide (65 ≤ n ∧ n ≤ 90)

/-- ASCII lowercase letter a-z. -/
def isAsciiLowerN (n : Nat) : Bool := decide (97 ≤ n ∧ n ≤ 122)

/-- The Latin-1 accented letters included in the model fragment:
é É ñ Ñ ç Ç ü Ü Å å (code points 233, 201, 241, 209, 231, 199, 252, 220,
197, 229). -/
def isLatin1Frag (n : Nat) : Bool :=
  decide (n = 233 ∨ n = 201 ∨ n = 241 ∨ n = 209 ∨ n = 231 ∨ n = 199 ∨ n = 252 ∨ n = 220 ∨
    n = 197 ∨ n = 229)

/-- CJK unified ideographs, general category Lo. -/
def isCJK (n : Nat) : Bool := decide (0x4E00 ≤ n ∧ n ≤ 0x9FFF)

/-- Combining diacritical marks block (the combining marks produced by the
NFKD decompositions of the fragment). -/
def pyCombining (n : Nat) : Bool := decide (0x300 ≤ n ∧ n ≤ 0x36F)

/-- Model of `unicodedata.name`: `none` when the code point has no canonical
Unicode name (the C0 and C1 control characters), otherwise a name string.
Only the presence of the substring "LATIN" in the name is semantically
relevant, and the model is faithful to it on the fragment: exactly the
ASCII letters and the Latin-1 accented letters have "LATIN" in their names. -/
def uniName (n : Nat) : Option PyStr :=
  if n ≤ 0x1F ∨ (0x7F ≤ n ∧ n ≤ 0x9F) then none
  else if isAsciiUpperN n || isAsciiLowerN n || isLatin1Frag n then some (pystr "LATIN LETTER")
  else some (pystr "UNICODE CHARACTER")

/-- Whether the first list is an initial segment of the second. -/
def listPrefixOf : PyStr → PyStr → Bool
  | [], _ => true
  | _ :: _, [] => false
  | x :: xs, y :: ys => decide (x = y) && listPrefixOf xs ys

/-- Whether `needle` occurs as a contiguous substring of the second list
(the Python `in` test on strings). -/
def hasInfix (needle : PyStr) : PyStr → Bool
  | [] => listPrefixOf needle []
  | c :: rest => listPrefixOf needle (c :: rest) || hasInfix needle rest

/-- Source `_is_latin_char`: `name = unicodedata.name(c, ''); return 'LATIN' in name`.
Because the call passes the default `''`, `unicodedata.name` never raises, so
the `except ValueError` fallback of the source (code-point range test) is
unreachable; the nameless case yields the empty name, which does not contain
"LATIN". -/
def _is_latin_char (n : Nat) : Bool :=
  hasInfix (pystr "LATIN") ((uniName n).getD [])

/-- The dead fallback of `_is_latin_char` (source lines 42-45): Basic Latin +
Latin-1 + Latin Extended A/B + Latin Extended Additional code point ranges. -/
def latinFallbackRanges (n : Nat) : Bool :=
  decide (n ≤ 0x24F) || decide (0x1E00 ≤ n ∧ n ≤ 0x1EFF)

/-- Model of the general category test `cat[0] == 'L'` (any letter category).
U+212B ANGSTROM SIGN has category Lu in the Unicode database, so it is a
letter although its name does not contain "LATIN". -/
def categoryL (n : Nat) : Bool :=
  isAsciiUpperN n || isAsciiLowerN n || isLatin1Frag n || isCJK n || decide (n = 0x212B)

/-- Model of the general category test `cat == 'Nd'` (decimal digit): ASCII
digits 0-9 and the Arabic-Indic digits U+0660 - U+0669. -/
def categoryNd (n : Nat) : Bool :=
  decide ((48 ≤ n ∧ n ≤ 57) ∨ (0x660 ≤ n ∧ n ≤ 0x669))

/-- Source `_is_valid_ident_char`: underscore, any letter category, or Nd. -/
def _is_valid_ident_char (n : Nat) : Bool :=
  decide (n = 95) || categoryL n || categoryNd n

/-- Model of `unicodedata.normalize('NFKD', c)` for a single character of the
fragment: the accented Latin-1 letters decompose into base letter plus a
combining mark; every other fragment character decomposes to itself. -/
def nfkd (n : Nat) : PyStr :=
  if n = 233 then [101, 0x301] else if n = 201 then [69, 0x301]
  else if n = 241 then [110, 0x303] else if n = 209 then [78, 0x303]
  else if n = 231 then [99, 0x327] else if n = 199 then [67, 0x327]
  else if n = 252 then [117, 0x308] else if n = 220 then [85, 0x308]
  else if n = 197 then [65, 0x30A] else if n = 229 then [97, 0x30A]
  else [n]

/-- Model of `unicodedata.normalize('NFC', c)` for a single character.  NFC is
not the identity on all singletons: U+212B ANGSTROM SIGN canonically
decomposes to U+00C5 and the recomposition is excluded back to U+212B, so NFC
maps it to U+00C5 (the letter Å).  The other fragment characters are
NFC-stable singletons. -/
def nfcSingle (n : Nat) : PyStr := if n = 0x212B then [0xC5] else [n]

/-- One character of the per-character normalization loop of `_sanitize_ident`:
Latin characters are NFKD-decomposed with combining marks filtered out,
others are NFC-normalized and kept as is. -/
def normChar (n : Nat) : PyStr :=
  if _is_latin_char n then (nfkd n).filter (fun c => !pyCombining c) else nfcSingle n

/-- The concatenation of the per-character results (`''.join(result_chars)`). -/
def normalizeStr : PyStr → PyStr
  | [] => []
  | c :: rest => normChar c ++ normalizeStr rest

/-- Replace every invalid character by an underscore
(`''.join(c if _is_valid_ident_char(c) else '_' for c in ident)`). -/
def substInvalid (s : PyStr) : PyStr :=
  s.map (fun c => if _is_valid_ident_char c then c else 95)

/-- Source `ident.lstrip('_')`. -/
def lstripUnderscore : PyStr → PyStr
  | [] => []
  | c :: rest => if c = 95 then lstripUnderscore rest else c :: rest

/-- Source regex `_invalid_ident_start_re = re.compile(r'^(?=[0-9_])')`:
the class `[0-9]` matches only the ASCII digits, not other Unicode decimal
digits. -/
def _invalid_ident_start (s : PyStr) : Bool :=
  match s with
  | [] => false
  | c :: _ => decide (48 ≤ c ∧ c ≤ 57) || decide (c = 95)

/-- Source `_invalid_ident_start_re.sub(prefix, ident)`: insert the prefix at
the start when the string starts with an ASCII digit or underscore. -/
def fixStart (pre s : PyStr) : PyStr :=
  if _invalid_ident_start s then pre ++ s else s

/-- Model of the `upper` method on one code point, on the fragment:
ASCII lowercase shifts to uppercase, the accented lowercase Latin-1 letters
map to their accented uppercase forms, everything else is unchanged. -/
def upNat (n : Nat) : Nat :=
  if 97 ≤ n ∧ n ≤ 122 then n - 32
  else if n = 233 then 201 else if n = 241 then 209
  else if n = 231 then 199 else if n = 252 then 220
  else if n = 229 then 197 else n

/-- Model of the `lower` method on one code point, on the fragment. -/
def lowNat (n : Nat) : Nat :=
  if 65 ≤ n ∧ n ≤ 90 then n + 32
  else if n = 201 then 233 else if n = 209 then 241
  else if n = 199 then 231 else if n = 220 then 252
  else if n = 197 then 229 else n

/-- Model of `str.upper`. -/
def pyUpper (s : PyStr) : PyStr := s.map upNat

/-- Model of `str.lower`. -/
def pyLower (s : PyStr) : PyStr := s.map lowNat

/-- Source `ident[0].capitalize() + ident[1:]`: capitalize exactly the first
character.  On the fragment, title-casing one character equals upper-casing it. -/
def pyCapitalize : PyStr → PyStr
  | [] => []
  | c :: rest => upNat c :: rest

/-- The keyword list of the target scripting language (`keyword.kwlist`). -/
def pyKeywords : List PyStr :=
  [pystr "False", pystr "None", pystr "True", pystr "and", pystr "as",
   pystr "assert", pystr "async", pystr "await", pystr "break", pystr "class",
   pystr "continue", pystr "def", pystr "del", pystr "elif", pystr "else",
   pystr "except", pystr "finally", pystr "for", pystr "from", pystr "global",
   pystr "if", pystr "import", pystr "in", pystr "is", pystr "lambda",
   pystr "nonlocal", pystr "not", pystr "or", pystr "pass", pystr "raise",
   pystr "return", pystr "try", pystr "while", pystr "with", pystr "yield"]

/-- Source `iskeyword`: exact membership in the keyword list (case-sensitive). -/
def iskeyword (s : PyStr) : Bool := decide (s ∈ pyKeywords)

/-- Source loop `while iskeyword(ident): ident = prefix + ident`.
Every keyword has at most 8 characters, so for a non-empty prefix the loop
runs fewer than 9 iterations; the fuel 9 makes the recursion structural while
computing exactly the loop result for every non-empty prefix (proved below).
For an empty prefix the source loop would not terminate on a keyword; the
repository only ever passes the prefixes "T" and "c". -/
def fixKeywordAux : Nat → PyStr → PyStr → PyStr
  | 0, _, s => s
  | fuel + 1, pre, s => if iskeyword s then fixKeywordAux fuel pre (pre ++ s) else s

/-- The keyword-repair loop of `_sanitize_ident`. -/
def fixKeyword (pre s : PyStr) : PyStr := fixKeywordAux 9 pre s

/-- The tail of `_sanitize_ident` after prefix repair: empty check, optional
capitalization of the first character, keyword repair. -/
def sanitizeCore (pre : PyStr) (cap : Bool) (s : PyStr) : PyStr :=
  if s = [] then s else fixKeyword pre (if cap then pyCapitalize s else s)

/-- Source `_sanitize_ident(ident, prefix, capitalize)`.  A `none` label is
coerced to the empty string. -/
def _sanitize_ident (ident : Option PyStr) (pre : PyStr) (cap : Bool) : PyStr :=
  sanitizeCore pre cap
    (fixStart pre (lstripUnderscore (substInvalid (normalizeStr (ident.getD [])))))

/-- Decimal representation of a natural number (the `%d` of `"%s%d"`), with a
structural fuel argument (the fuel `n + 1` always suffices, see `valDec_decRepr`). -/
def decReprAux : Nat → Nat → PyStr
  | 0, _ => []
  | fuel + 1, n => if n < 10 then [48 + n] else decReprAux fuel (n / 10) ++ [48 + n % 10]

/-- Decimal representation of a natural number as a `PyStr`. -/
def decRepr (n : Nat) : PyStr := decReprAux (n + 1) n

/-- Parse a decimal string back to a number (used to prove `decRepr` injective). -/
def valDec (s : PyStr) : Nat := s.foldl (fun a c => 10 * a + (c - 48)) 0

/-- Source regex `\d$` applied by `re.search`: the last character is a decimal
digit (category Nd).  The inputs reaching this test never contain newlines,
so the end-of-string subtlety of `$` does not arise. -/
def _ends_in_digit : PyStr → Bool
  | [] => false
  | [c] => categoryNd c
  | _ :: c :: rest => _ends_in_digit (c :: rest)

/-- Linear search for the first index `k ≥ start` with `p k`, with fuel.
Models the `while True` loops of the source; the fuel `avoid.length + 1`
always suffices by pigeonhole (proved below). -/
def searchFrom (p : Nat → Bool) : Nat → Nat → Option Nat
  | _, 0 => none
  | start, fuel + 1 => if p start then some start else searchFrom p (start + 1) fuel

/-- The suffix base of `_add_suffix`: an underscore is appended when the base
ends in a digit, to keep the suffix unambiguous. -/
def suffixBase (base : PyStr) : PyStr :=
  if _ends_in_digit base then base ++ [95] else base

/-- Source `_add_suffix(ident_base, avoid, next_suffix)`: append an underscore
when the base ends in a digit, then append the first integer suffix
`≥ next_suffix` whose upper-cased result is not in `avoid`.  The source loop
is unbounded; the fuel `avoid.length + 1` always suffices (proved below), so
the `none` arm is unreachable. -/
def _add_suffix (base : PyStr) (avoid : List PyStr) (next : Nat) : PyStr :=
  match searchFrom (fun k => decide (pyUpper (suffixBase base ++ decRepr k) ∉ avoid)) next
      (avoid.length + 1) with
  | some n => suffixBase base ++ decRepr n
  | none => suffixBase base

/-- Source `_maybe_add_suffix`. -/
def _maybe_add_suffix (ident : PyStr) (avoid : List PyStr) : PyStr :=
  if pyUpper ident ∈ avoid then _add_suffix ident avoid 2 else ident

/-- Source `_uppercase`: the set `{name.upper() for name in avoid}` (a fresh
collection; sets are modelled as lists compared by membership). -/
def _uppercase (avoid : List PyStr) : List PyStr := avoid.map pyUpper

/-- Bijective base-26 numeral of `n ≥ 1` over the alphabet A-Z, with fuel
(`fuel = n` suffices, see `val26_b26Aux`). -/
def b26Aux : Nat → Nat → PyStr
  | 0, _ => []
  | fuel + 1, n => if n = 0 then [] else b26Aux fuel ((n - 1) / 26) ++ [65 + (n - 1) % 26]

/-- The k-th element (0-based) of the letter stream yielded by the source
generator `_make_letters`: A, B, ..., Z, AA, AB, ..., ZZ, AAA, ... -/
def _make_letters (k : Nat) : PyStr := b26Aux (k + 1) (k + 1)

/-- Parse an A-Z string as a bijective base-26 numeral (used for injectivity). -/
def val26 (s : PyStr) : Nat := s.foldl (fun a c => 26 * a + (c - 64)) 0

/-- Source `_gen_ident`: uppercase the avoid set (again) and return the first
element of the letter stream that is not in it.  The source loop over the
infinite generator is modelled with fuel that always suffices (proved below). -/
def _gen_ident (avoid0 : List PyStr) : PyStr :=
  match searchFrom (fun k => decide (_make_letters k ∉ _uppercase avoid0)) 0
      ((_uppercase avoid0).length + 1) with
  | some k => _make_letters k
  | none => []

/-- Source `pick_table_ident`. -/
def pick_table_ident (ident : Option PyStr) (avoid0 : List PyStr) : PyStr :=
  if _sanitize_ident ident (pystr "T") true = [] then
    _add_suffix (pystr "Table") (_uppercase avoid0) 1
  else _maybe_add_suffix (_sanitize_ident ident (pystr "T") true) (_uppercase avoid0)

/-- Source `pick_col_ident`. -/
def pick_col_ident (ident : Option PyStr) (avoid0 : List PyStr) : PyStr :=
  if _sanitize_ident ident (pystr "c") false = [] then _gen_ident (_uppercase avoid0)
  else _maybe_add_suffix (_sanitize_ident ident (pystr "c") false) (_uppercase avoid0)

/-- Model of `set.add`: insert by membership. -/
def setAdd (x : PyStr) (s : List PyStr) : List PyStr := if x ∈ s then s else x :: s

/-- The loop of `pick_col_ident_list`: pick each identifier against the
current avoid set, then add its upper-cased form to the set. -/
def pick_col_ident_list_go : List PyStr → List (Option PyStr) → List PyStr
  | _, [] => []
  | avoid, i :: rest =>
    pick_col_ident i avoid ::
      pick_col_ident_list_go (setAdd (pyUpper (pick_col_ident i avoid)) avoid) rest

/-- Source `pick_col_ident_list`. -/
def pick_col_ident_list (idents : List (Option PyStr)) (avoid0 : List PyStr) : List PyStr :=
  pick_col_ident_list_go (_uppercase avoid0) idents

/-- The character invariant of sanitized identifiers: a valid identifier
character that is either a fixed point of per-character normalization or the
letter Å (197), the one character the NFC branch can produce (from U+212B)
whose own renormalization differs (NFKD strips its combining ring). -/
def OutChar (n : Nat) : Bool :=
  _is_valid_ident_char n && (decide (normChar n = [n]) || decide (n = 197))

/-- The stricter invariant of twice-sanitized identifiers: a valid identifier
character fixed under per-character normalization. -/
def NChar (n : Nat) : Bool :=
  _is_valid_ident_char n && decide (normChar n = [n])

/-- The identifier contract of the public entry points: non-empty, all
characters identifier-legal, no leading ASCII digit or underscore, not exactly
a reserved keyword, and upper-cased form absent from the upper-cased avoid set. -/
def identOK (r : PyStr) (avoid : List PyStr) : Prop :=
  r ≠ [] ∧ (∀ c ∈ r, _is_valid_ident_char c = true) ∧
    (∀ h, r.head? = some h → ¬(48 ≤ h ∧ h ≤ 57) ∧ h ≠ 95) ∧
    iskeyword r = false ∧ pyUpper r ∉ _uppercase avoid

/-- A store of Python set objects (used to model object identity and in-place
mutation for the frame claim): a set value is a reference (index) into the
store. -/
abbrev SetStore := List (List PyStr)

/-- Read the set object at a reference. -/
def storeGet : SetStore → Nat → List PyStr
  | [], _ => []
  | s :: _, 0 => s
  | _ :: σ, r + 1 => storeGet σ r

/-- Overwrite the set object at a reference (in-place mutation). -/
def storeSet : SetStore → Nat → List PyStr → SetStore
  | [], _, _ => []
  | _ :: σ, 0, v => v :: σ
  | s :: σ, r + 1, v => s :: storeSet σ r v

/-- Heap-level `pick_table_ident`: `avoid = _uppercase(avoid)` allocates a
fresh set object and rebinds the local name to it; the caller object at `r`
is only read.  Returns the store after the call and the result string. -/
def pick_table_ident_st (σ : SetStore) (r : Nat) (ident : Option PyStr) :
    SetStore × PyStr :=
  (σ ++ [_uppercase (storeGet σ r)], pick_table_ident ident (storeGet σ r))

/-- Heap-level `pick_col_ident`: same shape as `pick_table_ident_st`. -/
def pick_col_ident_st (σ : SetStore) (r : Nat) (ident : Option PyStr) :
    SetStore × PyStr :=
  (σ ++ [_uppercase (storeGet σ r)], pick_col_ident ident (storeGet σ r))

/-- The loop of heap-level `pick_col_ident_list`: each iteration reads the
local set object at `lr`, picks an identifier, and mutates that local object
in place with `avoid.add(ident.upper())`. -/
def pick_col_ident_list_st_go : SetStore → Nat → List (Option PyStr) → SetStore × List PyStr
  | σ, _, [] => (σ, [])
  | σ, lr, i :: rest =>
    ((pick_col_ident_list_st_go
        (storeSet σ lr (setAdd (pyUpper (pick_col_ident i (storeGet σ lr))) (storeGet σ lr)))
        lr rest).1,
     pick_col_ident i (storeGet σ lr) ::
      (pick_col_ident_list_st_go
        (storeSet σ lr (setAdd (pyUpper (pick_col_ident i (storeGet σ lr))) (storeGet σ lr)))
        lr rest).2)

/-- Heap-level `pick_col_ident_list`: `avoid = _uppercase(avoid)` allocates a
fresh local set object (at index `σ.length`); all subsequent `avoid.add`
mutations hit that local object only. -/
def pick_col_ident_list_st (σ : SetStore) (r : Nat) (idents : List (Option PyStr)) :
    SetStore × List PyStr :=
  pick_col_ident_list_st_go (σ ++ [_uppercase (storeGet σ r)]) σ.length idents

/-- Unfolding of `_is_valid_ident_char` into arithmetic constraints. -/
theorem valid_iff (n : Nat) :
    _is_valid_ident_char n = true ↔
      (n = 95 ∨ (65 ≤ n ∧ n ≤ 90) ∨ (97 ≤ n ∧ n ≤ 122) ∨
        (n = 233 ∨ n = 201 ∨ n = 241 ∨ n = 209 ∨ n = 231 ∨ n = 199 ∨ n = 252 ∨ n = 220 ∨
          n = 197 ∨ n = 229) ∨
        (0x4E00 ≤ n ∧ n ≤ 0x9FFF) ∨ n = 0x212B ∨
        ((48 ≤ n ∧ n ≤ 57) ∨ (0x660 ≤ n ∧ n ≤ 0x669))) := by
  simp only [_is_valid_ident_char, categoryL, categoryNd, isAsciiUpperN, isAsciiLowerN,
    isLatin1Frag, isCJK, Bool.or_eq_true, decide_eq_true_eq]
  omega

/-- Unfolding of `isLatin1Frag`. -/
theorem frag_iff (n : Nat) :
    isLatin1Frag n = true ↔
      (n = 233 ∨ n = 201 ∨ n = 241 ∨ n = 209 ∨ n = 231 ∨ n = 199 ∨ n = 252 ∨ n = 220 ∨
        n = 197 ∨ n = 229) := by
  simp [isLatin1Frag]

/-- Unfolding of `OutChar`. -/
theorem OutChar_iff (n : Nat) :
    OutChar n = true ↔
      _is_valid_ident_char n = true ∧ (normChar n = [n] ∨ n = 197) := by
  simp [OutChar]

/-- Unfolding of `NChar`. -/
theorem NChar_iff (n : Nat) :
    NChar n = true ↔ _is_valid_ident_char n = true ∧ normChar n = [n] := by
  simp [NChar]

/-- `upNat` is idempotent. -/
theorem upNat_idem (n : Nat) : upNat (upNat n) = upNat n := by
  by_cases h1 : 97 ≤ n ∧ n ≤ 122
  · have h2 : upNat n = n - 32 := by unfold upNat; rw [if_pos h1]
    rw [h2]; unfold upNat; split_ifs <;> omega
  · by_cases hf : n = 233 ∨ n = 241 ∨ n = 231 ∨ n = 252 ∨ n = 229
    · rcases hf with h | h | h | h | h <;> subst h <;> decide
    · have h2 : upNat n = n := by unfold upNat; split_ifs <;> omega
      rw [h2, h2]

/-- `upNat` fixes ASCII digits. -/
theorem upNat_digit_id (n : Nat) (h1 : 48 ≤ n) (h2 : n ≤ 57) : upNat n = n := by
  unfold upNat; split_ifs <;> omega

/-- `upNat` fixes ASCII uppercase letters. -/
theorem upNat_upper_id (n : Nat) (h1 : 65 ≤ n) (h2 : n ≤ 90) : upNat n = n := by
  unfold upNat; split_ifs <;> omega

/-- `upNat` preserves identifier-character validity. -/
theorem valid_upNat (n : Nat) (h : _is_valid_ident_char n = true) :
    _is_valid_ident_char (upNat n) = true := by
  rw [valid_iff] at h ⊢; unfold upNat; split_ifs <;> omega

/-- `upNat` cannot create a leading ASCII digit. -/
theorem upNat_not_digit (n : Nat) (h : ¬(48 ≤ n ∧ n ≤ 57)) :
    ¬(48 ≤ upNat n ∧ upNat n ≤ 57) := by
  unfold upNat; split_ifs <;> omega

/-- `upNat` cannot create an underscore. -/
theorem upNat_ne_95 (n : Nat) (h : n ≠ 95) : upNat n ≠ 95 := by
  unfold upNat; split_ifs <;> omega

/-- `pyUpper` distributes over append. -/
theorem pyUpper_append (a b : PyStr) : pyUpper (a ++ b) = pyUpper a ++ pyUpper b :=
  List.map_append ..

/-- `pyUpper` is idempotent. -/
theorem pyUpper_idem (s : PyStr) : pyUpper (pyUpper s) = pyUpper s := by
  simp only [pyUpper, List.map_map]
  exact List.map_congr_left fun a _ => upNat_idem a

/-- `_uppercase` is idempotent. -/
theorem uppercase_idem (A : List PyStr) : _uppercase (_uppercase A) = _uppercase A := by
  simp only [_uppercase, List.map_map]
  exact List.map_congr_left fun a _ => pyUpper_idem a

/-- A list of upper-case-fixed strings is fixed by `_uppercase`. -/
theorem uppercase_fixed (A : List PyStr) (h : ∀ x ∈ A, pyUpper x = x) :
    _uppercase A = A := by
  have := List.map_congr_left h
  simpa [_uppercase] using this

/-- Characterization of `_is_latin_char` on the model: the code point has a
canonical name and the name contains "LATIN" (ASCII letters and the Latin-1
fragment letters).  Unnamed characters always yield `false`, since the source
passes the default `''` to `unicodedata.name`. -/
theorem latin_char_iff (n : Nat) :
    _is_latin_char n = true ↔
      (¬(n ≤ 0x1F ∨ (0x7F ≤ n ∧ n ≤ 0x9F)) ∧
        (isAsciiUpperN n || isAsciiLowerN n || isLatin1Frag n) = true) := by
  unfold _is_latin_char uniName
  split_ifs with h1 h2
  · simpa [h1] using by decide
  · simpa [h1, h2] using by decide
  · simpa [h1, h2] using by decide

/-- A Latin character of the model is an ASCII letter or a fragment letter. -/
theorem latin_char_cases (n : Nat) (h : _is_latin_char n = true) :
    (65 ≤ n ∧ n ≤ 90) ∨ (97 ≤ n ∧ n ≤ 122) ∨ isLatin1Frag n = true := by
  have h2 := ((latin_char_iff n).1 h).2
  simp only [isAsciiUpperN, isAsciiLowerN, Bool.or_eq_true, decide_eq_true_eq] at h2
  tauto

/-- Fragment letters are Latin characters. -/
theorem frag_latin (n : Nat) (h : isLatin1Frag n = true) : _is_latin_char n = true := by
  rw [frag_iff] at h
  rcases h with h | h | h | h | h | h | h | h | h | h <;> subst h <;> decide

/-- `nfkd` is the identity outside the fragment. -/
theorem nfkd_default (n : Nat) (h : isLatin1Frag n = false) : nfkd n = [n] := by
  rw [Bool.eq_false_iff, Ne, frag_iff] at h
  push_neg at h
  obtain ⟨h1, h2, h3, h4, h5, h6, h7, h8, h9, h10⟩ := h
  unfold nfkd
  rw [if_neg h1, if_neg h2, if_neg h3, if_neg h4, if_neg h5, if_neg h6, if_neg h7,
    if_neg h8, if_neg h9, if_neg h10]

/-- `normChar` is the identity on non-Latin characters other than U+212B
(which NFC recomposes to U+00C5). -/
theorem normChar_of_not_latin (n : Nat) (h : _is_latin_char n = false)
    (h2 : n ≠ 0x212B) : normChar n = [n] := by
  simp [normChar, h, nfcSingle, h2]

/-- Valid identifier characters are never combining marks. -/
theorem valid_not_combining (n : Nat) (h : _is_valid_ident_char n = true) :
    pyCombining n = false := by
  rw [valid_iff] at h; simp only [pyCombining, decide_eq_false_iff_not]; omega

/-- `normChar` evaluated on the accented fragment letters: the combining mark
is filtered out and the ASCII base letter remains. -/
theorem normChar_frag_eval (n : Nat) (h : isLatin1Frag n = true) :
    ∃ b, normChar n = [b] ∧ isLatin1Frag b = false ∧
      ((65 ≤ b ∧ b ≤ 90) ∨ (97 ≤ b ∧ b ≤ 122)) := by
  rw [frag_iff] at h
  rcases h with h | h | h | h | h | h | h | h | h | h <;> subst h
  · exact ⟨101, by decide, by decide, by omega⟩
  · exact ⟨69, by decide, by decide, by omega⟩
  · exact ⟨110, by decide, by decide, by omega⟩
  · exact ⟨78, by decide, by decide, by omega⟩
  · exact ⟨99, by decide, by decide, by omega⟩
  · exact ⟨67, by decide, by decide, by omega⟩
  · exact ⟨117, by decide, by decide, by omega⟩
  · exact ⟨85, by decide, by decide, by omega⟩
  · exact ⟨65, by decide, by decide, by omega⟩
  · exact ⟨97, by decide, by decide, by omega⟩

/-- Per-character normalization fixes ASCII letters. -/
theorem normChar_ascii (n : Nat) (h : (65 ≤ n ∧ n ≤ 90) ∨ (97 ≤ n ∧ n ≤ 122)) :
    normChar n = [n] := by
  have hf : isLatin1Frag n = false := by
    rw [Bool.eq_false_iff, Ne, frag_iff]; omega
  have hl : _is_latin_char n = true := by
    rw [latin_char_iff]
    refine ⟨by omega, ?_⟩
    simp only [isAsciiUpperN, isAsciiLowerN, Bool.or_eq_true, decide_eq_true_eq]
    omega
  have hc : pyCombining n = false := by
    simp only [pyCombining, decide_eq_false_iff_not]; omega
  unfold normChar
  rw [if_pos hl, nfkd_default n hf]
  simp [List.filter, hc]

/-- `upNat` preserves normalization-fixedness. -/
theorem upNat_norm_fixed (c : Nat) (hfix : normChar c = [c]) :
    normChar (upNat c) = [upNat c] := by
  by_cases h1 : 97 ≤ c ∧ c ≤ 122
  · have h2 : upNat c = c - 32 := by unfold upNat; rw [if_pos h1]
    rw [h2]
    exact normChar_ascii (c - 32) (Or.inl (by omega))
  · by_cases h2 : c = 233 ∨ c = 241 ∨ c = 231 ∨ c = 252 ∨ c = 229
    · exfalso
      rcases h2 with h | h | h | h | h <;> subst h <;> exact absurd hfix (by decide)
    · have h3 : upNat c = c := by unfold upNat; split_ifs <;> omega
      rw [h3]
      exact hfix

/-- `OutChar` is closed under `upNat`. -/
theorem OutChar_upNat (c : Nat) (h : OutChar c = true) : OutChar (upNat c) = true := by
  rw [OutChar_iff] at h ⊢
  obtain ⟨hv, hfx⟩ := h
  refine ⟨valid_upNat c hv, ?_⟩
  rcases hfx with hfx | hfx
  · exact Or.inl (upNat_norm_fixed c hfx)
  · subst hfx
    exact Or.inr (by decide)

/-- `NChar` is closed under `upNat`. -/
theorem NChar_upNat (c : Nat) (h : NChar c = true) : NChar (upNat c) = true := by
  rw [NChar_iff] at h ⊢
  exact ⟨valid_upNat c h.1, upNat_norm_fixed c h.2⟩

/-- `NChar` characters are `OutChar`. -/
theorem NChar_OutChar (c : Nat) (h : NChar c = true) : OutChar c = true := by
  rw [NChar_iff] at h
  rw [OutChar_iff]
  exact ⟨h.1, Or.inl h.2⟩

/-- `OutChar` characters are valid. -/
theorem OutChar_valid (c : Nat) (h : OutChar c = true) :
    _is_valid_ident_char c = true :=
  ((OutChar_iff c).1 h).1

/-- `NChar` characters are valid. -/
theorem NChar_valid (c : Nat) (h : NChar c = true) :
    _is_valid_ident_char c = true :=
  ((NChar_iff c).1 h).1

/-- `NChar` characters are normalization-fixed. -/
theorem NChar_fixed (c : Nat) (h : NChar c = true) : normChar c = [c] :=
  ((NChar_iff c).1 h).2

/-- Every character produced by `normChar` is a fixed point of normalization,
or the letter Å (produced from U+212B by NFC). -/
theorem normChar_out_fix (a c : Nat) (hc : c ∈ normChar a) :
    normChar c = [c] ∨ c = 197 := by
  by_cases hl : _is_latin_char a = true
  · rcases latin_char_cases a hl with h | h | h
    · have hf : isLatin1Frag a = false := by
        rw [Bool.eq_false_iff, Ne, frag_iff]; omega
      unfold normChar at hc
      rw [if_pos hl, nfkd_default a hf] at hc
      simp only [List.filter, List.mem_singleton] at hc
      rcases hx : pyCombining a with _ | _ <;> rw [hx] at hc <;> simp at hc
      subst hc
      exact Or.inl (normChar_ascii c (Or.inl h))
    · have hf : isLatin1Frag a = false := by
        rw [Bool.eq_false_iff, Ne, frag_iff]; omega
      unfold normChar at hc
      rw [if_pos hl, nfkd_default a hf] at hc
      simp only [List.filter, List.mem_singleton] at hc
      rcases hx : pyCombining a with _ | _ <;> rw [hx] at hc <;> simp at hc
      subst hc
      exact Or.inl (normChar_ascii c (Or.inr h))
    · obtain ⟨b, hb, _, hbrange⟩ := normChar_frag_eval a h
      rw [hb] at hc
      simp at hc
      subst hc
      exact Or.inl (normChar_ascii c hbrange)
  · by_cases ha : a = 0x212B
    · subst ha
      rw [show normChar 0x212B = [197] from by decide] at hc
      simp at hc
      exact Or.inr hc
    · rw [normChar_of_not_latin a (by simpa using hl) ha] at hc
      simp at hc
      subst hc
      exact Or.inl (normChar_of_not_latin c (by simpa using hl) ha)

/-- `normChar` of an `OutChar` character produces only `NChar` characters. -/
theorem normChar_out_NChar (a c : Nat) (ha : OutChar a = true) (hc : c ∈ normChar a) :
    NChar c = true := by
  rw [OutChar_iff] at ha
  obtain ⟨hv, hfx⟩ := ha
  rcases hfx with hfx | hfx
  · rw [hfx] at hc
    simp at hc
    subst hc
    rw [NChar_iff]
    exact ⟨hv, hfx⟩
  · subst hfx
    rw [show normChar 197 = [65] from by decide] at hc
    simp at hc
    subst hc
    decide

/-- Digits of `decReprAux` are ASCII digits. -/
theorem decReprAux_digits (f : Nat) :
    ∀ n c, c ∈ decReprAux f n → 48 ≤ c ∧ c ≤ 57 := by
  induction f with
  | zero => intro n c hc; simp [decReprAux] at hc
  | succ f ih =>
    intro n c hc
    unfold decReprAux at hc
    split_ifs at hc with h
    · simp at hc; omega
    · rcases List.mem_append.1 hc with h1 | h1
      · exact ih _ _ h1
      · simp at h1; omega

/-- `valDec` of an appended digit. -/
theorem valDec_append (l : PyStr) (c : Nat) :
    valDec (l ++ [c]) = 10 * valDec l + (c - 48) := by
  simp [valDec, List.foldl_append]

/-- `decReprAux` parses back to its argument whenever the fuel exceeds it. -/
theorem valDec_decReprAux (f : Nat) : ∀ n, n < f → valDec (decReprAux f n) = n := by
  induction f with
  | zero => intro n h; omega
  | succ f ih =>
    intro n h
    unfold decReprAux
    split_ifs with h10
    · simp [valDec]
    · rw [valDec_append, ih (n / 10) (by omega)]
      omega

/-- `decRepr` parses back to its argument. -/
theorem valDec_decRepr (n : Nat) : valDec (decRepr n) = n :=
  valDec_decReprAux (n + 1) n (Nat.lt_succ_self n)

/-- `decRepr` is injective. -/
theorem decRepr_inj (a b : Nat) (h : decRepr a = decRepr b) : a = b := by
  have := valDec_decRepr a
  rw [h, valDec_decRepr b] at this
  omega

/-- `decRepr` is never empty. -/
theorem decRepr_ne_nil (n : Nat) : decRepr n ≠ [] := by
  unfold decRepr decReprAux
  split_ifs <;> simp

/-- Digits of `decRepr` are ASCII digits. -/
theorem decRepr_digits (n c : Nat) (hc : c ∈ decRepr n) : 48 ≤ c ∧ c ≤ 57 :=
  decReprAux_digits (n + 1) n c hc

/-- `pyUpper` fixes decimal suffixes. -/
theorem pyUpper_decRepr (n : Nat) : pyUpper (decRepr n) = decRepr n := by
  unfold pyUpper
  rw [show (decRepr n).map upNat = (decRepr n).map id from ?_, List.map_id]
  exact List.map_congr_left fun c hc =>
    upNat_digit_id c (decRepr_digits n c hc).1 (decRepr_digits n c hc).2

/-- Characters of `b26Aux` are ASCII uppercase letters. -/
theorem b26Aux_chars (f : Nat) : ∀ n c, c ∈ b26Aux f n → 65 ≤ c ∧ c ≤ 90 := by
  induction f with
  | zero => intro n c hc; simp [b26Aux] at hc
  | succ f ih =>
    intro n c hc
    unfold b26Aux at hc
    split_ifs at hc with h
    · simp at hc
    · rcases List.mem_append.1 hc with h1 | h1
      · exact ih _ _ h1
      · simp at h1
        have := Nat.mod_lt (n - 1) (show 0 < 26 by omega)
        omega

/-- `val26` of an appended letter. -/
theorem val26_append (l : PyStr) (c : Nat) :
    val26 (l ++ [c]) = 26 * val26 l + (c - 64) := by
  simp [val26, List.foldl_append]

/-- `b26Aux` parses back to its argument whenever the fuel is at least it. -/
theorem val26_b26Aux (f : Nat) : ∀ n, n ≤ f → val26 (b26Aux f n) = n := by
  induction f with
  | zero =>
    intro n h
    have : n = 0 := by omega
    subst this; simp [b26Aux, val26]
  | succ f ih =>
    intro n h
    unfold b26Aux
    split_ifs with h0
    · subst h0; simp [val26]
    · rw [val26_append, ih ((n - 1) / 26) (by
        have := Nat.div_le_self (n - 1) 26
        omega)]
      have := Nat.div_add_mod (n - 1) 26
      have := Nat.mod_lt (n - 1) (show 0 < 26 by omega)
      omega

/-- The letter stream parses back to its successor index. -/
theorem val26_make_letters (k : Nat) : val26 (_make_letters k) = k + 1 :=
  val26_b26Aux (k + 1) (k + 1) (Nat.le_refl _)

/-- The letter stream is injective. -/
theorem make_letters_inj (a b : Nat) (h : _make_letters a = _make_letters b) : a = b := by
  have := val26_make_letters a
  rw [h, val26_make_letters b] at this
  omega

/-- Elements of the letter stream are non-empty. -/
theorem make_letters_ne_nil (k : Nat) : _make_letters k ≠ [] := by
  unfold _make_letters b26Aux
  rw [if_neg (show ¬(k + 1 = 0) by omega)]
  simp

/-- Characters of the letter stream are ASCII uppercase letters. -/
theorem make_letters_chars (k c : Nat) (hc : c ∈ _make_letters k) : 65 ≤ c ∧ c ≤ 90 :=
  b26Aux_chars (k + 1) (k + 1) c hc

/-- `pyUpper` fixes elements of the letter stream. -/
theorem pyUpper_make_letters (k : Nat) : pyUpper (_make_letters k) = _make_letters k := by
  unfold pyUpper
  rw [show (_make_letters k).map upNat = (_make_letters k).map id from ?_, List.map_id]
  exact List.map_congr_left fun c hc =>
    upNat_upper_id c (make_letters_chars k c hc).1 (make_letters_chars k c hc).2

/-- Soundness of the fueled search: a `some` result satisfies the predicate,
is at least the start, and is the least such index. -/
theorem searchFrom_some (p : Nat → Bool) (fuel : Nat) :
    ∀ start n, searchFrom p start fuel = some n →
      p n = true ∧ start ≤ n ∧ ∀ m, start ≤ m → m < n → p m = false := by
  induction fuel with
  | zero => intro start n h; simp [searchFrom] at h
  | succ fuel ih =>
    intro start n h
    unfold searchFrom at h
    split_ifs at h with hp
    · cases h
      exact ⟨hp, Nat.le_refl _, fun m h1 h2 => absurd h1 (by omega)⟩
    · obtain ⟨q1, q2, q3⟩ := ih (start + 1) n h
      refine ⟨q1, by omega, fun m h1 h2 => ?_⟩
      rcases Nat.eq_or_lt_of_le h1 with h3 | h3
      · subst h3; simpa using hp
      · exact q3 m (by omega) h2

/-- Completeness of the fueled search: a witness within the fuel window makes
the search succeed. -/
theorem searchFrom_complete (p : Nat → Bool) (fuel : Nat) :
    ∀ start, (∃ k, start ≤ k ∧ k < start + fuel ∧ p k = true) →
      ∃ n, searchFrom p start fuel = some n := by
  induction fuel with
  | zero =>
    intro start h
    obtain ⟨k, h1, h2, _⟩ := h
    omega
  | succ fuel ih =>
    intro start h
    unfold searchFrom
    split_ifs with hp
    · exact ⟨start, rfl⟩
    · obtain ⟨k, h1, h2, h3⟩ := h
      refine ih (start + 1) ⟨k, ?_, by omega, h3⟩
      rcases Nat.eq_or_lt_of_le h1 with h4 | h4
      · subst h4; rw [h3] at hp; simp at hp
      · omega

/-- Pigeonhole for an injective key stream: within any window of
`A.length + 1` consecutive indices there is a key outside `A`. -/
theorem exists_key_not_mem (key : Nat → PyStr)
    (hinj : ∀ a b, key a = key b → a = b) :
    ∀ (L : Nat) (A : List PyStr), A.length ≤ L → ∀ start,
      ∃ k, start ≤ k ∧ k < start + L + 1 ∧ key k ∉ A := by
  intro L
  induction L with
  | zero =>
    intro A hA start
    have : A = [] := List.eq_nil_of_length_eq_zero (by omega)
    subst this
    exact ⟨start, Nat.le_refl _, by omega, by simp⟩
  | succ L ih =>
    intro A hA start
    by_cases hm : key start ∈ A
    · obtain ⟨k, hk1, hk2, hk3⟩ := ih (A.erase (key start))
        (by have := List.length_erase_of_mem hm; omega) (start + 1)
      refine ⟨k, by omega, by omega, fun hkA => ?_⟩
      have hne : key k ≠ key start := fun he => by
        have := hinj _ _ he; omega
      exact hk3 ((List.mem_erase_of_ne hne).2 hkA)
    · exact ⟨start, Nat.le_refl _, by omega, hm⟩

/-- Full specification of `_add_suffix`: the result is the suffix base followed
by the least suffix `≥ next` whose upper-cased form avoids the set (the fueled
search never fails, by pigeonhole on the injective key stream). -/
theorem add_suffix_spec (base : PyStr) (avoid : List PyStr) (next : Nat) :
    ∃ n, next ≤ n ∧ _add_suffix base avoid next = suffixBase base ++ decRepr n ∧
      pyUpper (suffixBase base ++ decRepr n) ∉ avoid ∧
      ∀ m, next ≤ m → m < n → pyUpper (suffixBase base ++ decRepr m) ∈ avoid := by
  have hinj : ∀ a b, pyUpper (suffixBase base ++ decRepr a) =
      pyUpper (suffixBase base ++ decRepr b) → a = b := by
    intro a b h
    rw [pyUpper_append, pyUpper_append, pyUpper_decRepr, pyUpper_decRepr] at h
    exact decRepr_inj a b (List.append_cancel_left h)
  obtain ⟨k, hk1, hk2, hk3⟩ := exists_key_not_mem _ hinj avoid.length avoid (Nat.le_refl _) next
  obtain ⟨n, hn⟩ := searchFrom_complete
    (fun k => decide (pyUpper (suffixBase base ++ decRepr k) ∉ avoid))
    (avoid.length + 1) next ⟨k, hk1, by omega, by simpa using hk3⟩
  obtain ⟨q1, q2, q3⟩ := searchFrom_some _ _ _ _ hn
  refine ⟨n, q2, ?_, by simpa using q1, fun m h1 h2 => ?_⟩
  · unfold _add_suffix; rw [hn]
  · have := q3 m h1 h2
    simpa using this

/-- Full specification of `_gen_ident`: the result is the first element of the
letter stream whose upper-cased form is not in the upper-cased avoid set. -/
theorem gen_ident_spec (avoid0 : List PyStr) :
    ∃ k, _gen_ident avoid0 = _make_letters k ∧
      _make_letters k ∉ _uppercase avoid0 ∧
      ∀ j, j < k → _make_letters j ∈ _uppercase avoid0 := by
  obtain ⟨k, _, hk2, hk3⟩ := exists_key_not_mem _ make_letters_inj
    (_uppercase avoid0).length (_uppercase avoid0) (Nat.le_refl _) 0
  obtain ⟨n, hn⟩ := searchFrom_complete
    (fun k => decide (_make_letters k ∉ _uppercase avoid0))
    ((_uppercase avoid0).length + 1) 0 ⟨k, Nat.zero_le _, by omega, by simpa using hk3⟩
  obtain ⟨q1, _, q3⟩ := searchFrom_some _ _ _ _ hn
  refine ⟨n, ?_, by simpa using q1, fun j hj => ?_⟩
  · unfold _gen_ident; rw [hn]
  · have := q3 j (Nat.zero_le _) hj
    simpa using this

/-- `_maybe_add_suffix` never returns an element of the avoid set (upper-cased). -/
theorem maybe_add_suffix_not_mem (ident : PyStr) (avoid : List PyStr) :
    pyUpper (_maybe_add_suffix ident avoid) ∉ avoid := by
  unfold _maybe_add_suffix
  split_ifs with h
  · obtain ⟨n, _, he, hnot, _⟩ := add_suffix_spec ident avoid 2
    rw [he]; exact hnot
  · exact h

/-- All keywords have at most 8 characters. -/
theorem kw_short : ∀ s ∈ pyKeywords, s.length ≤ 8 := by decide

/-- All keyword characters are ASCII letters. -/
theorem kw_chars_letters : ∀ s ∈ pyKeywords, ∀ c ∈ s,
    (97 ≤ c ∧ c ≤ 122) ∨ (65 ≤ c ∧ c ≤ 90) := by decide

/-- Every keyword contains at least one lowercase letter. -/
theorem kw_has_lower : ∀ s ∈ pyKeywords, ∃ c ∈ s, 97 ≤ c ∧ c ≤ 122 := by decide

/-- Keywords are short. -/
theorem iskeyword_len (s : PyStr) (h : iskeyword s = true) : s.length ≤ 8 := by
  simp only [iskeyword, decide_eq_true_eq] at h
  exact kw_short s h

/-- A string containing an ASCII digit is not a keyword. -/
theorem not_kw_of_digit_mem (s : PyStr) (c : Nat) (hc : c ∈ s)
    (hd : 48 ≤ c ∧ c ≤ 57) : iskeyword s = false := by
  rcases hk : iskeyword s with _ | _
  · rfl
  · exfalso
    simp only [iskeyword, decide_eq_true_eq] at hk
    have := kw_chars_letters s hk c hc
    omega

/-- A string of only ASCII uppercase letters is not a keyword. -/
theorem not_kw_of_all_upper (s : PyStr) (h : ∀ c ∈ s, 65 ≤ c ∧ c ≤ 90) :
    iskeyword s = false := by
  rcases hk : iskeyword s with _ | _
  · rfl
  · exfalso
    simp only [iskeyword, decide_eq_true_eq] at hk
    obtain ⟨c, hc, hrange⟩ := kw_has_lower s hk
    have := h c hc
    omega

/-- Appending a decimal suffix always leaves the keyword list. -/
theorem suffix_not_kw (x : PyStr) (n : Nat) : iskeyword (x ++ decRepr n) = false := by
  obtain ⟨c, hc⟩ := List.exists_mem_of_ne_nil _ (decRepr_ne_nil n)
  exact not_kw_of_digit_mem _ c (List.mem_append_right x hc) (decRepr_digits n c hc)

/-- Characters of the keyword-repair loop come from the prefix or the input. -/
theorem fixKeywordAux_mem (fuel : Nat) :
    ∀ pre s c, c ∈ fixKeywordAux fuel pre s → c ∈ pre ∨ c ∈ s := by
  induction fuel with
  | zero => intro pre s c h; exact Or.inr h
  | succ fuel ih =>
    intro pre s c h
    unfold fixKeywordAux at h
    split_ifs at h with hk
    · rcases ih pre (pre ++ s) c h with h1 | h1
      · exact Or.inl h1
      · exact List.mem_append.1 h1
    · exact Or.inr h

/-- The keyword-repair loop preserves non-emptiness. -/
theorem fixKeywordAux_ne_nil (fuel : Nat) :
    ∀ pre s, s ≠ [] → fixKeywordAux fuel pre s ≠ [] := by
  induction fuel with
  | zero => intro pre s h; exact h
  | succ fuel ih =>
    intro pre s h
    unfold fixKeywordAux
    split_ifs with hk
    · exact ih pre (pre ++ s) (by simp [h])
    · exact h

/-- The head of the keyword-repair result is the head of the input or the
head of the prefix. -/
theorem fixKeywordAux_head (fuel : Nat) :
    ∀ pre s, pre ≠ [] → s ≠ [] →
      (fixKeywordAux fuel pre s).head? = s.head? ∨
        (fixKeywordAux fuel pre s).head? = pre.head? := by
  induction fuel with
  | zero => intro pre s _ _; exact Or.inl rfl
  | succ fuel ih =>
    intro pre s hpre hs
    unfold fixKeywordAux
    split_ifs with hk
    · rcases ih pre (pre ++ s) hpre (by simp [hs]) with h1 | h1
      · right
        rw [h1]
        cases pre with
        | nil => exact absurd rfl hpre
        | cons p ps => rfl
      · exact Or.inr h1
    · exact Or.inl rfl

/-- With a non-empty prefix and enough fuel the keyword-repair loop exits with
a non-keyword (fuel 9 is always enough since keywords have length at most 8). -/
theorem fixKeywordAux_not_kw (fuel : Nat) :
    ∀ pre s, pre ≠ [] → 9 ≤ s.length + fuel →
      iskeyword (fixKeywordAux fuel pre s) = false := by
  induction fuel with
  | zero =>
    intro pre s _ hlen
    rcases hk : iskeyword s with _ | _
    · exact hk
    · have := iskeyword_len s hk
      omega
  | succ fuel ih =>
    intro pre s hpre hlen
    unfold fixKeywordAux
    split_ifs with hk
    · refine ih pre (pre ++ s) hpre ?_
      have : 1 ≤ pre.length := List.length_pos.2 hpre
      simp only [List.length_append]
      omega
    · simpa using hk

/-- The keyword-repair loop is the identity on non-keywords. -/
theorem fixKeywordAux_id (fuel : Nat) (pre s : PyStr) (h : iskeyword s = false) :
    fixKeywordAux fuel pre s = s := by
  cases fuel with
  | zero => rfl
  | succ fuel => unfold fixKeywordAux; rw [h]; simp

/-- `fixKeyword` output is never a keyword, for a non-empty prefix. -/
theorem fixKeyword_not_kw (pre s : PyStr) (hpre : pre ≠ []) :
    iskeyword (fixKeyword pre s) = false :=
  fixKeywordAux_not_kw 9 pre s hpre (by omega)

/-- Members of the normalized string come from `normChar` of some input char. -/
theorem mem_normalizeStr (s : PyStr) :
    ∀ c, c ∈ normalizeStr s → ∃ a ∈ s, c ∈ normChar a := by
  induction s with
  | nil => intro c hc; simp [normalizeStr] at hc
  | cons a t ih =>
    intro c hc
    unfold normalizeStr at hc
    rcases List.mem_append.1 hc with h | h
    · exact ⟨a, List.mem_cons_self a t, h⟩
    · obtain ⟨b, hb1, hb2⟩ := ih c h
      exact ⟨b, List.mem_cons_of_mem a hb1, hb2⟩

/-- Normalization is the identity on strings of normalization-fixed characters. -/
theorem normalizeStr_fixed (s : PyStr) (h : ∀ c ∈ s, normChar c = [c]) :
    normalizeStr s = s := by
  induction s with
  | nil => rfl
  | cons a t ih =>
    unfold normalizeStr
    rw [h a (List.mem_cons_self a t), ih (fun c hc => h c (List.mem_cons_of_mem a hc))]
    rfl

/-- Characters surviving underscore substitution lie in any class that holds
of the underscore and of the valid input characters. -/
theorem substInvalid_class (P : Nat → Bool) (s : PyStr)
    (hP95 : P 95 = true)
    (hP : ∀ c ∈ s, _is_valid_ident_char c = true → P c = true) :
    ∀ c ∈ substInvalid s, P c = true := by
  intro c hc
  obtain ⟨a, ha, hae⟩ := List.mem_map.1 hc
  by_cases hv : _is_valid_ident_char a = true
  · rw [if_pos hv] at hae
    subst hae
    exact hP a ha hv
  · rw [if_neg hv] at hae
    subst hae
    exact hP95

/-- After normalization and underscore substitution of an arbitrary string,
every character satisfies the sanitized-output invariant `OutChar`. -/
theorem stageB_OutChar (s0 : PyStr) :
    ∀ c ∈ substInvalid (normalizeStr s0), OutChar c = true := by
  refine substInvalid_class OutChar _ (by decide) ?_
  intro c hc hv
  obtain ⟨a, _, hmem⟩ := mem_normalizeStr s0 c hc
  rw [OutChar_iff]
  exact ⟨hv, normChar_out_fix a c hmem⟩

/-- After normalization and underscore substitution of a string of `OutChar`
characters, every character satisfies the stricter invariant `NChar`. -/
theorem stageB_NChar (s : PyStr) (hs : ∀ c ∈ s, OutChar c = true) :
    ∀ c ∈ substInvalid (normalizeStr s), NChar c = true := by
  refine substInvalid_class NChar _ (by decide) ?_
  intro c hc _
  obtain ⟨a, ha, hmem⟩ := mem_normalizeStr s c hc
  exact normChar_out_NChar a c (hs a ha) hmem

/-- Underscore substitution is the identity on all-valid strings. -/
theorem substInvalid_id (s : PyStr) (h : ∀ c ∈ s, _is_valid_ident_char c = true) :
    substInvalid s = s := by
  unfold substInvalid
  rw [show s.map (fun c => if _is_valid_ident_char c then c else 95) = s.map id from
    List.map_congr_left fun a ha => by rw [if_pos (h a ha)]; rfl, List.map_id]

/-- Stripping leading underscores only removes characters. -/
theorem lstrip_subset (s : PyStr) : ∀ c, c ∈ lstripUnderscore s → c ∈ s := by
  induction s with
  | nil => intro c hc; exact hc
  | cons a t ih =>
    intro c hc
    unfold lstripUnderscore at hc
    split_ifs at hc with h
    · exact List.mem_cons_of_mem a (ih c hc)
    · exact hc

/-- The head after stripping leading underscores is not an underscore. -/
theorem lstrip_head (s : PyStr) : ∀ h t, lstripUnderscore s = h :: t → h ≠ 95 := by
  induction s with
  | nil => intro h t he; simp [lstripUnderscore] at he
  | cons a rest ih =>
    intro h t he
    unfold lstripUnderscore at he
    split_ifs at he with ha
    · exact ih h t he
    · rw [List.cons.injEq] at he
      omega

/-- Stripping is the identity when the head is not an underscore. -/
theorem lstrip_id (s : PyStr) (h : ∀ c, s.head? = some c → c ≠ 95) :
    lstripUnderscore s = s := by
  cases s with
  | nil => rfl
  | cons a t =>
    unfold lstripUnderscore
    rw [if_neg (h a rfl)]

/-- The head after prefix repair: either a clean head (no ASCII digit, no
underscore) or the head of the prefix. -/
theorem fixStart_head (pre s : PyStr) (hne : pre ≠ []) :
    ∀ c, (fixStart pre s).head? = some c →
      (¬(48 ≤ c ∧ c ≤ 57) ∧ c ≠ 95) ∨ pre.head? = some c := by
  intro c hc
  unfold fixStart at hc
  split_ifs at hc with hst
  · right
    cases pre with
    | nil => exact absurd rfl hne
    | cons p ps =>
      simp only [List.cons_append, List.head?_cons] at hc
      exact hc
  · left
    cases s with
    | nil => simp at hc
    | cons a t =>
      simp only [List.head?_cons, Option.some.injEq] at hc
      subst hc
      unfold _invalid_ident_start at hst
      simp only [Bool.or_eq_true, decide_eq_true_eq, not_or] at hst
      push_neg at hst
      exact ⟨by omega, by omega⟩

/-- Members after prefix repair come from the prefix or the input. -/
theorem fixStart_mem (pre s : PyStr) :
    ∀ c, c ∈ fixStart pre s → c ∈ pre ∨ c ∈ s := by
  intro c hc
  unfold fixStart at hc
  split_ifs at hc with hst
  · exact List.mem_append.1 hc
  · exact Or.inr hc

/-- Prefix repair is the identity on strings with a clean head. -/
theorem fixStart_id (pre s : PyStr)
    (h : ∀ c, s.head? = some c → ¬(48 ≤ c ∧ c ≤ 57) ∧ c ≠ 95) :
    fixStart pre s = s := by
  unfold fixStart
  cases s with
  | nil => rfl
  | cons a t =>
    obtain ⟨h1, h2⟩ := h a rfl
    rw [if_neg ?_]
    unfold _invalid_ident_start
    simp only [Bool.or_eq_true, decide_eq_true_eq, not_or]
    exact ⟨h1, h2⟩

/-- `fixKeyword` preserves non-emptiness. -/
theorem fixKeyword_ne_nil (pre s : PyStr) (h : s ≠ []) : fixKeyword pre s ≠ [] :=
  fixKeywordAux_ne_nil 9 pre s h

/-- Characters of `fixKeyword` come from the prefix or the input. -/
theorem fixKeyword_mem (pre s : PyStr) (c : Nat) (hc : c ∈ fixKeyword pre s) :
    c ∈ pre ∨ c ∈ s :=
  fixKeywordAux_mem 9 pre s c hc

/-- The head of `fixKeyword` is the head of the input or of the prefix. -/
theorem fixKeyword_head (pre s : PyStr) (hpre : pre ≠ []) (hs : s ≠ []) :
    (fixKeyword pre s).head? = s.head? ∨ (fixKeyword pre s).head? = pre.head? :=
  fixKeywordAux_head 9 pre s hpre hs

/-- Properties of the tail of sanitization (`sanitizeCore`) on a non-empty
input whose characters lie in an `upNat`-closed character class `P` and whose
head is clean: the result is non-empty, stays in the class, has a clean head
(upper-case-fixed when capitalization is on), and is not a keyword. -/
theorem sanitizeCore_props (pre : PyStr) (cap : Bool) (s4 : PyStr) (P : Nat → Bool)
    (hne : pre ≠ []) (hchars : ∀ c ∈ pre, P c = true)
    (hheadp : ∀ h, pre.head? = some h →
      ¬(48 ≤ h ∧ h ≤ 57) ∧ h ≠ 95 ∧ (cap = true → upNat h = h))
    (hPup : ∀ c, P c = true → P (upNat c) = true)
    (h4nil : s4 ≠ []) (h4chars : ∀ c ∈ s4, P c = true)
    (h4head : ∀ c, s4.head? = some c → ¬(48 ≤ c ∧ c ≤ 57) ∧ c ≠ 95) :
    sanitizeCore pre cap s4 ≠ [] ∧
      (∀ c ∈ sanitizeCore pre cap s4, P c = true) ∧
      (∀ h, (sanitizeCore pre cap s4).head? = some h →
        ¬(48 ≤ h ∧ h ≤ 57) ∧ h ≠ 95 ∧ (cap = true → upNat h = h)) ∧
      iskeyword (sanitizeCore pre cap s4) = false := by
  unfold sanitizeCore
  rw [if_neg h4nil]
  cases cap with
  | false =>
    rw [if_neg Bool.false_ne_true]
    refine ⟨fixKeyword_ne_nil pre s4 h4nil, ?_, ?_, fixKeyword_not_kw pre s4 hne⟩
    · intro c hc
      rcases fixKeyword_mem pre s4 c hc with h | h
      · exact hchars c h
      · exact h4chars c h
    · intro c hc
      rcases fixKeyword_head pre s4 hne h4nil with h | h
      · rw [h] at hc
        obtain ⟨q1, q2⟩ := h4head c hc
        exact ⟨q1, q2, by simp⟩
      · rw [h] at hc
        obtain ⟨q1, q2, _⟩ := hheadp c hc
        exact ⟨q1, q2, by simp⟩
  | true =>
    rw [if_pos rfl]
    cases s4 with
    | nil => exact absurd rfl h4nil
    | cons a t =>
      have hcap : pyCapitalize (a :: t) = upNat a :: t := rfl
      rw [hcap]
      have h5ne : upNat a :: t ≠ [] := by simp
      have h5chars : ∀ c ∈ upNat a :: t, P c = true := by
        intro c hc
        rcases List.mem_cons.1 hc with h | h
        · subst h
          exact hPup a (h4chars a (List.mem_cons_self a t))
        · exact h4chars c (List.mem_cons_of_mem a h)
      refine ⟨fixKeyword_ne_nil pre _ h5ne, ?_, ?_, fixKeyword_not_kw pre _ hne⟩
      · intro c hc
        rcases fixKeyword_mem pre _ c hc with h | h
        · exact hchars c h
        · exact h5chars c h
      · intro c hc
        rcases fixKeyword_head pre _ hne h5ne with h | h
        · rw [h] at hc
          simp only [List.head?_cons, Option.some.injEq] at hc
          subst hc
          obtain ⟨q1, q2⟩ := h4head a rfl
          exact ⟨upNat_not_digit a q1, upNat_ne_95 a q2, fun _ => upNat_idem a⟩
        · rw [h] at hc
          obtain ⟨q1, q2, q3⟩ := hheadp c hc
          exact ⟨q1, q2, q3⟩

/-- Main properties of `_sanitize_ident` for a well-behaved prefix,
parametrized by an `upNat`-closed character class `P` that covers the prefix
and all characters surviving underscore substitution: the result is empty, or
it is non-empty, made of `P` characters, starts with neither an ASCII digit
nor an underscore (and with an upper-case-fixed character if capitalization
is on), and is not a keyword. -/
theorem sanitize_props_class (label : Option PyStr) (pre : PyStr) (cap : Bool)
    (P : Nat → Bool)
    (hne : pre ≠ []) (hchars : ∀ c ∈ pre, P c = true)
    (hheadp : ∀ h, pre.head? = some h →
      ¬(48 ≤ h ∧ h ≤ 57) ∧ h ≠ 95 ∧ (cap = true → upNat h = h))
    (hPup : ∀ c, P c = true → P (upNat c) = true)
    (hstageB : ∀ c ∈ substInvalid (normalizeStr (label.getD [])), P c = true) :
    _sanitize_ident label pre cap = [] ∨
      (_sanitize_ident label pre cap ≠ [] ∧
        (∀ c ∈ _sanitize_ident label pre cap, P c = true) ∧
        (∀ h, (_sanitize_ident label pre cap).head? = some h →
          ¬(48 ≤ h ∧ h ≤ 57) ∧ h ≠ 95 ∧ (cap = true → upNat h = h)) ∧
        iskeyword (_sanitize_ident label pre cap) = false) := by
  by_cases h4nil :
      fixStart pre (lstripUnderscore (substInvalid (normalizeStr (label.getD [])))) = []
  · left
    unfold _sanitize_ident sanitizeCore
    rw [if_pos h4nil]
    exact h4nil
  · right
    have h4chars : ∀ c ∈
        fixStart pre (lstripUnderscore (substInvalid (normalizeStr (label.getD [])))),
        P c = true := by
      intro c hc
      rcases fixStart_mem _ _ c hc with h | h
      · exact hchars c h
      · exact hstageB c (lstrip_subset _ c h)
    have h4head : ∀ c,
        (fixStart pre (lstripUnderscore (substInvalid (normalizeStr (label.getD []))))).head? =
          some c → ¬(48 ≤ c ∧ c ≤ 57) ∧ c ≠ 95 := by
      intro c hc
      rcases fixStart_head pre _ hne c hc with h | h
      · exact h
      · obtain ⟨q1, q2, _⟩ := hheadp c h
        exact ⟨q1, q2⟩
    exact sanitizeCore_props pre cap _ P hne hchars hheadp hPup h4nil h4chars h4head

/-- First-pass properties of `_sanitize_ident`: on an arbitrary label, a
non-empty result consists of `OutChar` characters. -/
theorem sanitize_props (label : Option PyStr) (pre : PyStr) (cap : Bool)
    (hne : pre ≠ []) (hchars : ∀ c ∈ pre, OutChar c = true)
    (hheadp : ∀ h, pre.head? = some h →
      ¬(48 ≤ h ∧ h ≤ 57) ∧ h ≠ 95 ∧ (cap = true → upNat h = h)) :
    _sanitize_ident label pre cap = [] ∨
      (_sanitize_ident label pre cap ≠ [] ∧
        (∀ c ∈ _sanitize_ident label pre cap, OutChar c = true) ∧
        (∀ h, (_sanitize_ident label pre cap).head? = some h →
          ¬(48 ≤ h ∧ h ≤ 57) ∧ h ≠ 95 ∧ (cap = true → upNat h = h)) ∧
        iskeyword (_sanitize_ident label pre cap) = false) :=
  sanitize_props_class label pre cap OutChar hne hchars hheadp OutChar_upNat
    (stageB_OutChar (label.getD []))

/-- Second-pass properties of `_sanitize_ident`: on a label whose characters
already satisfy `OutChar`, a non-empty result consists of `NChar` characters
(every character is normalization-fixed). -/
theorem sanitize_propsN (s : PyStr) (pre : PyStr) (cap : Bool)
    (hne : pre ≠ []) (hchars : ∀ c ∈ pre, NChar c = true)
    (hheadp : ∀ h, pre.head? = some h →
      ¬(48 ≤ h ∧ h ≤ 57) ∧ h ≠ 95 ∧ (cap = true → upNat h = h))
    (hs : ∀ c ∈ s, OutChar c = true) :
    _sanitize_ident (some s) pre cap = [] ∨
      (_sanitize_ident (some s) pre cap ≠ [] ∧
        (∀ c ∈ _sanitize_ident (some s) pre cap, NChar c = true) ∧
        (∀ h, (_sanitize_ident (some s) pre cap).head? = some h →
          ¬(48 ≤ h ∧ h ≤ 57) ∧ h ≠ 95 ∧ (cap = true → upNat h = h)) ∧
        iskeyword (_sanitize_ident (some s) pre cap) = false) :=
  sanitize_props_class (some s) pre cap NChar hne hchars hheadp NChar_upNat
    (stageB_NChar s hs)

/-- ASCII digits are valid identifier characters. -/
theorem digit_valid (c : Nat) (h1 : 48 ≤ c) (h2 : c ≤ 57) :
    _is_valid_ident_char c = true := by
  rw [valid_iff]; omega

/-- ASCII uppercase letters are valid identifier characters. -/
theorem upper_valid (c : Nat) (h1 : 65 ≤ c) (h2 : c ≤ 90) :
    _is_valid_ident_char c = true := by
  rw [valid_iff]; omega

/-- The head of an append with a non-empty left part. -/
theorem head_append_ne (l t : PyStr) (h : l ≠ []) : (l ++ t).head? = l.head? := by
  cases l with
  | nil => exact absurd rfl h
  | cons a r => rfl

/-- The head of a list is a member. -/
theorem head_mem (l : PyStr) (h : Nat) (hh : l.head? = some h) : h ∈ l := by
  cases l with
  | nil => simp at hh
  | cons a r =>
    simp only [List.head?_cons, Option.some.injEq] at hh
    subst hh
    exact List.mem_cons_self a r

/-- Members of the suffix base come from the base or are the underscore. -/
theorem suffixBase_mem (b : PyStr) (c : Nat) (hc : c ∈ suffixBase b) :
    c ∈ b ∨ c = 95 := by
  unfold suffixBase at hc
  split_ifs at hc with h
  · rcases List.mem_append.1 hc with h1 | h1
    · exact Or.inl h1
    · simp at h1; exact Or.inr h1
  · exact Or.inl hc

/-- The suffix base of a non-empty base is non-empty. -/
theorem suffixBase_ne_nil (b : PyStr) (h : b ≠ []) : suffixBase b ≠ [] := by
  unfold suffixBase
  split_ifs with h1
  · simp [h]
  · exact h

/-- The suffix base keeps the head of a non-empty base. -/
theorem suffixBase_head (b : PyStr) (h : b ≠ []) : (suffixBase b).head? = b.head? := by
  unfold suffixBase
  split_ifs with h1
  · exact head_append_ne b [95] h
  · rfl

/-- The prefix "T" is well-behaved. -/
theorem preT_ne : pystr "T" ≠ [] := by decide

/-- Characters of the prefix "T" satisfy the strict sanitized invariant. -/
theorem preT_chars : ∀ c ∈ pystr "T", NChar c = true := by decide

/-- The head of the prefix "T" is clean and upper-case-fixed. -/
theorem preT_head : ∀ h, (pystr "T").head? = some h →
    ¬(48 ≤ h ∧ h ≤ 57) ∧ h ≠ 95 ∧ (true = true → upNat h = h) := by
  intro h hh
  have : (84 : Nat) = h := by simpa [pystr] using hh
  subst this
  refine ⟨by omega, by omega, fun _ => by decide⟩

/-- The prefix "c" is well-behaved. -/
theorem preC_ne : pystr "c" ≠ [] := by decide

/-- Characters of the prefix "c" satisfy the strict sanitized invariant. -/
theorem preC_chars : ∀ c ∈ pystr "c", NChar c = true := by decide

/-- The head of the prefix "c" is clean; the upper-case-fixed component is
vacuous since columns are sanitized without capitalization. -/
theorem preC_head : ∀ h, (pystr "c").head? = some h →
    ¬(48 ≤ h ∧ h ≤ 57) ∧ h ≠ 95 ∧ (false = true → upNat h = h) := by
  intro h hh
  have : (99 : Nat) = h := by simpa [pystr] using hh
  subst this
  refine ⟨by omega, by omega, by simp⟩

/-- Identifier contract of a suffixed result `b ++ decRepr n` whose base has
invariant characters and a clean head. -/
theorem suffixed_identOK (b : PyStr) (n : Nat) (avoid0 : List PyStr)
    (hbne : b ≠ []) (hbchars : ∀ c ∈ b, _is_valid_ident_char c = true)
    (hbhead : ∀ h, b.head? = some h → ¬(48 ≤ h ∧ h ≤ 57) ∧ h ≠ 95)
    (hnot : pyUpper (suffixBase b ++ decRepr n) ∉ _uppercase avoid0) :
    identOK (suffixBase b ++ decRepr n) avoid0 := by
  refine ⟨?_, ?_, ?_, suffix_not_kw _ n, hnot⟩
  · intro hcon
    rw [List.append_eq_nil] at hcon
    exact decRepr_ne_nil n hcon.2
  · intro c hc
    rcases List.mem_append.1 hc with h | h
    · rcases suffixBase_mem b c h with h1 | h1
      · exact hbchars c h1
      · subst h1; decide
    · obtain ⟨d1, d2⟩ := decRepr_digits n c h
      exact digit_valid c d1 d2
  · intro h hh
    rw [head_append_ne _ _ (suffixBase_ne_nil b hbne), suffixBase_head b hbne] at hh
    exact hbhead h hh

/-- Full identifier contract of `pick_table_ident`: for every label and avoid
set, the result is non-empty, all characters are identifier-legal, the head is
neither an ASCII digit nor an underscore, the result is not exactly a keyword,
and its upper-cased form is absent from the upper-cased avoid set. -/
theorem pick_table_props (label : Option PyStr) (avoid0 : List PyStr) :
    identOK (pick_table_ident label avoid0) avoid0 := by
  unfold pick_table_ident
  by_cases hs : _sanitize_ident label (pystr "T") true = []
  · rw [if_pos hs]
    obtain ⟨n, hn1, he, hnot, _⟩ := add_suffix_spec (pystr "Table") (_uppercase avoid0) 1
    rw [he]
    refine suffixed_identOK _ n avoid0 (by decide) (by decide) ?_ hnot
    intro h hh
    have : (84 : Nat) = h := by simpa [pystr] using hh
    subst this
    exact ⟨by omega, by omega⟩
  · rw [if_neg hs]
    rcases sanitize_props label (pystr "T") true preT_ne
        (fun c hc => NChar_OutChar c (preT_chars c hc)) preT_head with
      h | ⟨q1, q2, q3, q4⟩
    · exact absurd h hs
    unfold _maybe_add_suffix
    split_ifs with hmem
    · obtain ⟨n, hn1, he, hnot, _⟩ :=
        add_suffix_spec (_sanitize_ident label (pystr "T") true) (_uppercase avoid0) 2
      rw [he]
      exact suffixed_identOK _ n avoid0 q1 (fun c hc => OutChar_valid c (q2 c hc))
        (fun h hh => ⟨(q3 h hh).1, (q3 h hh).2.1⟩) hnot
    · exact ⟨q1, fun c hc => OutChar_valid c (q2 c hc),
        fun h hh => ⟨(q3 h hh).1, (q3 h hh).2.1⟩, q4, hmem⟩

/-- Full identifier contract of `pick_col_ident`, as for tables. -/
theorem pick_col_props (label : Option PyStr) (avoid0 : List PyStr) :
    identOK (pick_col_ident label avoid0) avoid0 := by
  unfold pick_col_ident
  by_cases hs : _sanitize_ident label (pystr "c") false = []
  · rw [if_pos hs]
    obtain ⟨k, he, hnot, _⟩ := gen_ident_spec (_uppercase avoid0)
    rw [he]
    rw [uppercase_idem avoid0] at hnot
    refine ⟨make_letters_ne_nil k, ?_, ?_, ?_, ?_⟩
    · intro c hc
      obtain ⟨d1, d2⟩ := make_letters_chars k c hc
      exact upper_valid c d1 d2
    · intro h hh
      obtain ⟨d1, d2⟩ := make_letters_chars k h (head_mem _ h hh)
      exact ⟨by omega, by omega⟩
    · exact not_kw_of_all_upper _ (fun c hc => make_letters_chars k c hc)
    · rw [pyUpper_make_letters k]
      exact hnot
  · rw [if_neg hs]
    rcases sanitize_props label (pystr "c") false preC_ne
        (fun c hc => NChar_OutChar c (preC_chars c hc)) preC_head with
      h | ⟨q1, q2, q3, q4⟩
    · exact absurd h hs
    unfold _maybe_add_suffix
    split_ifs with hmem
    · obtain ⟨n, hn1, he, hnot, _⟩ :=
        add_suffix_spec (_sanitize_ident label (pystr "c") false) (_uppercase avoid0) 2
      rw [he]
      exact suffixed_identOK _ n avoid0 q1 (fun c hc => OutChar_valid c (q2 c hc))
        (fun h hh => ⟨(q3 h hh).1, (q3 h hh).2.1⟩) hnot
    · exact ⟨q1, fun c hc => OutChar_valid c (q2 c hc),
        fun h hh => ⟨(q3 h hh).1, (q3 h hh).2.1⟩, q4, hmem⟩

/-- Membership in `setAdd`. -/
theorem setAdd_mem (x y : PyStr) (s : List PyStr) :
    x ∈ setAdd y s ↔ x = y ∨ x ∈ s := by
  unfold setAdd
  split_ifs with h
  · constructor
    · exact Or.inr
    · intro hx
      rcases hx with hx | hx
      · subst hx; exact h
      · exact hx
  · simp [List.mem_cons]

/-- `setAdd` only grows the set. -/
theorem setAdd_subset (y : PyStr) (s : List PyStr) (x : PyStr) (hx : x ∈ s) :
    x ∈ setAdd y s :=
  (setAdd_mem x y s).2 (Or.inr hx)

/-- The added element is a member. -/
theorem setAdd_self (y : PyStr) (s : List PyStr) : y ∈ setAdd y s :=
  (setAdd_mem y y s).2 (Or.inl rfl)

/-- `setAdd` of an upper-case-fixed element preserves upper-case-fixedness. -/
theorem setAdd_upper_fixed (y : PyStr) (s : List PyStr) (hy : pyUpper y = y)
    (h : ∀ x ∈ s, pyUpper x = x) : ∀ x ∈ setAdd y s, pyUpper x = x := by
  intro x hx
  rcases (setAdd_mem x y s).1 hx with h1 | h1
  · subst h1; exact hy
  · exact h x h1

/-- Elements of an upper-cased set are upper-case-fixed. -/
theorem uppercase_elem_fixed (A : List PyStr) (x : PyStr) (hx : x ∈ _uppercase A) :
    pyUpper x = x := by
  obtain ⟨y, _, hy⟩ := List.mem_map.1 hx
  rw [← hy]
  exact pyUpper_idem y

/-- Invariant of the `pick_col_ident_list` loop over an upper-case-fixed avoid
set: the output has the input length, its elements are pairwise distinct after
upper-casing, and no element upper-cases into the initial avoid set. -/
theorem pick_col_list_go_spec (idents : List (Option PyStr)) :
    ∀ A : List PyStr, (∀ x ∈ A, pyUpper x = x) →
      (pick_col_ident_list_go A idents).length = idents.length ∧
      (pick_col_ident_list_go A idents).Pairwise (fun a b => pyUpper a ≠ pyUpper b) ∧
      ∀ x ∈ pick_col_ident_list_go A idents, pyUpper x ∉ A := by
  induction idents with
  | nil =>
    intro A _
    refine ⟨rfl, List.Pairwise.nil, ?_⟩
    intro x hx
    simp [pick_col_ident_list_go] at hx
  | cons i rest ih =>
    intro A hA
    have hr : pyUpper (pick_col_ident i A) ∉ A := by
      have hcontract := (pick_col_props i A).2.2.2.2
      rw [uppercase_fixed A hA] at hcontract
      exact hcontract
    have hA2 : ∀ x ∈ setAdd (pyUpper (pick_col_ident i A)) A, pyUpper x = x :=
      setAdd_upper_fixed _ A (pyUpper_idem _) hA
    obtain ⟨l1, l2, l3⟩ := ih (setAdd (pyUpper (pick_col_ident i A)) A) hA2
    refine ⟨?_, ?_, ?_⟩
    · unfold pick_col_ident_list_go
      simp [l1]
    · unfold pick_col_ident_list_go
      rw [List.pairwise_cons]
      refine ⟨fun b hb heq => ?_, l2⟩
      have hnb := l3 b hb
      rw [← heq] at hnb
      exact hnb (setAdd_self _ A)
    · intro x hx
      unfold pick_col_ident_list_go at hx
      rcases List.mem_cons.1 hx with h | h
      · subst h; exact hr
      · intro hmem
        exact l3 x h (setAdd_subset _ A _ hmem)

/-- `pick_col_ident_list` returns one identifier per label, with pairwise
distinct upper-cased forms. -/
theorem pick_col_ident_list_props (idents : List (Option PyStr)) (avoid0 : List PyStr) :
    (pick_col_ident_list idents avoid0).length = idents.length ∧
      (pick_col_ident_list idents avoid0).Pairwise (fun a b => pyUpper a ≠ pyUpper b) := by
  obtain ⟨l1, l2, _⟩ :=
    pick_col_list_go_spec idents (_uppercase avoid0) (uppercase_elem_fixed avoid0)
  exact ⟨l1, l2⟩

/-- `fixKeyword` is the identity on non-keywords. -/
theorem fixKeyword_id (pre s : PyStr) (h : iskeyword s = false) : fixKeyword pre s = s :=
  fixKeywordAux_id 9 pre s h

/-- Re-sanitizing a string that already satisfies the sanitized invariant
(non-empty, invariant characters, clean head, not a keyword) returns it
unchanged. -/
theorem sanitize_fixed (pre : PyStr) (cap : Bool) (s : PyStr)
    (hs_ne : s ≠ []) (hchars : ∀ c ∈ s, NChar c = true)
    (hhead : ∀ h, s.head? = some h →
      ¬(48 ≤ h ∧ h ≤ 57) ∧ h ≠ 95 ∧ (cap = true → upNat h = h))
    (hkw : iskeyword s = false) :
    _sanitize_ident (some s) pre cap = s := by
  unfold _sanitize_ident
  have e1 : normalizeStr s = s :=
    normalizeStr_fixed s (fun c hc => NChar_fixed c (hchars c hc))
  have e2 : substInvalid s = s :=
    substInvalid_id s (fun c hc => NChar_valid c (hchars c hc))
  have e3 : lstripUnderscore s = s :=
    lstrip_id s (fun c hc => (hhead c hc).2.1)
  have e4 : fixStart pre s = s :=
    fixStart_id pre s (fun c hc => ⟨(hhead c hc).1, (hhead c hc).2.1⟩)
  rw [show ((some s).getD [] : PyStr) = s from rfl, e1, e2, e3, e4]
  unfold sanitizeCore
  rw [if_neg hs_ne]
  cases cap with
  | false =>
    rw [if_neg Bool.false_ne_true]
    exact fixKeyword_id pre s hkw
  | true =>
    rw [if_pos rfl]
    have e5 : pyCapitalize s = s := by
      cases s with
      | nil => rfl
      | cons a t =>
        have := (hhead a rfl).2.2 rfl
        show upNat a :: t = a :: t
        rw [this]
    rw [e5]
    exact fixKeyword_id pre s hkw

/-- Reading past an append at an old index. -/
theorem storeGet_append (σ : SetStore) :
    ∀ r, r < σ.length → ∀ v, storeGet (σ ++ [v]) r = storeGet σ r := by
  induction σ with
  | nil => intro r h; simp at h
  | cons s t ih =>
    intro r h v
    cases r with
    | zero => rfl
    | succ r => exact ih r (by simpa using h) v

/-- Reading the freshly appended cell. -/
theorem storeGet_append_last (σ : SetStore) (v : List PyStr) :
    storeGet (σ ++ [v]) σ.length = v := by
  induction σ with
  | nil => rfl
  | cons s t ih => exact ih

/-- Writing one cell does not change the others. -/
theorem storeGet_set_ne (σ : SetStore) :
    ∀ i j v, i ≠ j → storeGet (storeSet σ i v) j = storeGet σ j := by
  induction σ with
  | nil => intro i j v _; cases i <;> cases j <;> rfl
  | cons s t ih =>
    intro i j v hij
    cases i with
    | zero =>
      cases j with
      | zero => exact absurd rfl hij
      | succ j => rfl
    | succ i =>
      cases j with
      | zero => rfl
      | succ j => exact ih i j v (by omega)

/-- Reading a freshly written cell. -/
theorem storeGet_set_eq (σ : SetStore) :
    ∀ i v, i < σ.length → storeGet (storeSet σ i v) i = v := by
  induction σ with
  | nil => intro i v h; simp at h
  | cons s t ih =>
    intro i v h
    cases i with
    | zero => rfl
    | succ i => exact ih i v (by simpa using h)

/-- Writing preserves the store size. -/
theorem storeSet_length (σ : SetStore) : ∀ i v, (storeSet σ i v).length = σ.length := by
  induction σ with
  | nil => intro i v; rfl
  | cons s t ih =>
    intro i v
    cases i with
    | zero => rfl
    | succ i => simp [storeSet, ih i v]

/-- The heap-level batch loop only writes the local cell `lr`, and computes
exactly the functional loop on the value stored there. -/
theorem list_st_go_spec (idents : List (Option PyStr)) :
    ∀ (σ : SetStore) (lr : Nat), lr < σ.length →
      (pick_col_ident_list_st_go σ lr idents).1.length = σ.length ∧
      (∀ j, j ≠ lr →
        storeGet (pick_col_ident_list_st_go σ lr idents).1 j = storeGet σ j) ∧
      (pick_col_ident_list_st_go σ lr idents).2 =
        pick_col_ident_list_go (storeGet σ lr) idents := by
  induction idents with
  | nil =>
    intro σ lr _
    exact ⟨rfl, fun j _ => rfl, rfl⟩
  | cons i rest ih =>
    intro σ lr h
    have hlen : (storeSet σ lr
        (setAdd (pyUpper (pick_col_ident i (storeGet σ lr))) (storeGet σ lr))).length =
        σ.length := storeSet_length σ lr _
    obtain ⟨l0, l1, l2⟩ := ih
      (storeSet σ lr (setAdd (pyUpper (pick_col_ident i (storeGet σ lr))) (storeGet σ lr)))
      lr (by rw [hlen]; exact h)
    refine ⟨by rw [show (pick_col_ident_list_st_go σ lr (i :: rest)).1 =
        (pick_col_ident_list_st_go (storeSet σ lr
          (setAdd (pyUpper (pick_col_ident i (storeGet σ lr))) (storeGet σ lr)))
          lr rest).1 from rfl, l0, hlen], ?_, ?_⟩
    · intro j hj
      rw [show (pick_col_ident_list_st_go σ lr (i :: rest)).1 =
        (pick_col_ident_list_st_go (storeSet σ lr
          (setAdd (pyUpper (pick_col_ident i (storeGet σ lr))) (storeGet σ lr)))
          lr rest).1 from rfl, l1 j hj, storeGet_set_ne σ lr j _ (fun he => hj he.symm)]
    · rw [show (pick_col_ident_list_st_go σ lr (i :: rest)).2 =
        pick_col_ident i (storeGet σ lr) ::
          (pick_col_ident_list_st_go (storeSet σ lr
            (setAdd (pyUpper (pick_col_ident i (storeGet σ lr))) (storeGet σ lr)))
            lr rest).2 from rfl, l2,
        storeGet_set_eq σ lr _ h]
      rfl

/-- C1 (amended): for every label (including an absent one) and every finite
avoid set, `pick_table_ident` and `pick_col_ident` return a non-empty string
of identifier-legal characters that does not begin with an ASCII digit or an
underscore, whose exact form is not a reserved keyword (the keyword test of
the code is case-sensitive), and whose upper-cased form is not a member of the
upper-cased avoid set.  The original claim is amended in two points, forced by
`C1_counterexample`: the no-leading-digit guarantee holds only for ASCII
digits, and the keyword exclusion is exact rather than case-insensitive. -/
theorem C1_identifier_contract (label : Option PyStr) (avoid : List PyStr) :
    identOK (pick_table_ident label avoid) avoid ∧
      identOK (pick_col_ident label avoid) avoid :=
  ⟨pick_table_props label avoid, pick_col_props label avoid⟩

/-- C1 counterexample: the label "Class" yields the identifier "Class", whose
case-insensitive (lower-cased) form is the reserved keyword "class"; and the
label made of the Arabic-Indic digit U+0663 followed by "x" yields an
identifier that begins with a Unicode decimal digit.  Both violate the claimed
grammar as stated. -/
theorem C1_counterexample :
    pick_col_ident (some (pystr "Class")) [] = pystr "Class" ∧
    pyLower (pystr "Class") = pystr "class" ∧
    iskeyword (pystr "class") = true ∧
    pick_table_ident (some [1635, 120]) [] = [1635, 120] ∧
    categoryNd 1635 = true := by
  decide

/-- C2: `pick_col_ident_list` returns a list of the same length and order as
its input, with pairwise distinct upper-cased elements, each element being
chosen against the avoid set extended with all previously chosen elements;
in particular the scenario of the spec holds. -/
theorem C2_unique_list (idents : List (Option PyStr)) (avoid : List PyStr) :
    (pick_col_ident_list idents avoid).length = idents.length ∧
    (pick_col_ident_list idents avoid).Pairwise (fun a b => pyUpper a ≠ pyUpper b) ∧
    pick_col_ident_list [some (pystr "Name"), some (pystr "Name"), none] [] =
      [pystr "Name", pystr "Name2", pystr "A"] := by
  obtain ⟨l1, l2⟩ := pick_col_ident_list_props idents avoid
  exact ⟨l1, l2, by decide⟩

/-- C3: uniqueness-resolver contract.  A non-colliding candidate is returned
unchanged; a colliding one becomes the suffix base (underscore appended when
the candidate ends in a decimal digit) followed by the least integer `n ≥ 2`
whose upper-cased result avoids the set; the two concrete scenarios hold. -/
theorem C3_resolver_contract (c : PyStr) (A : List PyStr) (hc : c ≠ []) :
    (pyUpper c ∉ A → _maybe_add_suffix c A = c) ∧
    (pyUpper c ∈ A →
      ∃ n, 2 ≤ n ∧ _maybe_add_suffix c A = suffixBase c ++ decRepr n ∧
        pyUpper (suffixBase c ++ decRepr n) ∉ A ∧
        ∀ m, 2 ≤ m → m < n → pyUpper (suffixBase c ++ decRepr m) ∈ A) ∧
    pick_col_ident (some (pystr "Name")) [pystr "NAME"] = pystr "Name2" ∧
    pick_col_ident (some (pystr "col1")) [] = pystr "col1" := by
  refine ⟨?_, ?_, by decide, by decide⟩
  · intro h
    unfold _maybe_add_suffix
    rw [if_neg h]
  · intro h
    unfold _maybe_add_suffix
    rw [if_pos h]
    exact add_suffix_spec c A 2

/-- Witness for C3 at the concrete input of the spec scenario. -/
theorem C3_witness :
    pystr "Name" ≠ ([] : PyStr) ∧
    pick_col_ident (some (pystr "Name")) [pystr "NAME"] = pystr "Name2" :=
  ⟨by decide, (C3_resolver_contract (pystr "Name") [pystr "NAME"] (by decide)).2.2.1⟩

/-- C4 (amended): the keyword-repair loop prepends the prefix while the
identifier exactly equals a reserved keyword, so a non-empty sanitized result
never exactly equals a keyword; `pick_col_ident("class", {})` returns
"cclass" and re-application is stable.  The original claim is amended, forced
by `C4_counterexample`: the repair is case-sensitive (exact match against the
keyword list), not case-insensitive, so results such as "Class" or "IF" whose
lower-cased forms are keywords are returned unchanged. -/
theorem C4_keyword_repair :
    (∀ (label : Option PyStr) (pre : PyStr) (cap : Bool), pre ≠ [] →
      _sanitize_ident label pre cap ≠ [] →
      iskeyword (_sanitize_ident label pre cap) = false) ∧
    pick_col_ident (some (pystr "class")) [] = pystr "cclass" ∧
    pick_col_ident (some (pystr "cclass")) [] = pystr "cclass" := by
  refine ⟨?_, by decide, by decide⟩
  intro label pre cap hpre hne
  unfold _sanitize_ident at hne ⊢
  unfold sanitizeCore at hne ⊢
  split_ifs at hne ⊢ with h4
  · exact absurd h4 hne
  · exact fixKeyword_not_kw pre _ hpre
  · exact fixKeyword_not_kw pre _ hpre

/-- Witness for C4 at the concrete input of the spec scenario. -/
theorem C4_witness :
    pystr "c" ≠ ([] : PyStr) ∧
    _sanitize_ident (some (pystr "class")) (pystr "c") false ≠ [] ∧
    iskeyword (_sanitize_ident (some (pystr "class")) (pystr "c") false) = false :=
  ⟨by decide, by decide,
    C4_keyword_repair.1 (some (pystr "class")) (pystr "c") false (by decide) (by decide)⟩

/-- C4 counterexample: the label "IF" is returned unchanged although its
lower-cased form "if" is a reserved keyword, so the repair loop is not
case-insensitive. -/
theorem C4_counterexample :
    pick_col_ident (some (pystr "IF")) [] = pystr "IF" ∧
    pyLower (pystr "IF") = pystr "if" ∧
    iskeyword (pystr "if") = true := by
  decide

/-- C5 (code bug): the claim requires the prefix to be inserted whenever the
intermediate string begins with any Unicode decimal digit, and the docstring
of `_sanitize_ident` promises a prefix whenever the string does not start
with a letter; but the source regex `^(?=[0-9_])` matches only ASCII digits,
so a label beginning with the Arabic-Indic digit U+0663 keeps its digit start
and no prefix is inserted.  The ASCII scenario of the spec does hold. -/
theorem C5_code_eval :
    pick_table_ident (some [1635, 120]) [] = [1635, 120] ∧
    categoryNd 1635 = true ∧
    _invalid_ident_start [1635, 120] = false ∧
    pick_table_ident (some (pystr "2023 Sales")) [] = pystr "T2023_Sales" := by
  decide

/-- C6 (code bug): the claim (and the comment in the source) says that a
character with no canonical Unicode name is classified Latin exactly when its
code point lies in the Basic Latin / Latin-1 / Latin Extended ranges; but the
source calls `unicodedata.name(c, '')` with a default, which never raises, so
the `except ValueError` range fallback is dead code and every nameless
character is classified non-Latin.  U+0001 is nameless and lies in Basic
Latin, yet the classifier returns false. -/
theorem C6_code_eval :
    uniName 1 = none ∧
    _is_latin_char 1 = false ∧
    latinFallbackRanges 1 = true := by
  decide

/-- C7: table fallback.  Whenever sanitization of the label with prefix "T"
and capitalization yields the empty string, `pick_table_ident` returns
"Table" followed by the least integer `n ≥ 1` whose upper-cased form is
absent from the upper-cased avoid set; in particular
`pick_table_ident(None, {"TABLE1"})` is "Table2". -/
theorem C7_table_fallback (label : Option PyStr) (avoid : List PyStr)
    (h : _sanitize_ident label (pystr "T") true = []) :
    (∃ n, 1 ≤ n ∧ pick_table_ident label avoid = pystr "Table" ++ decRepr n ∧
      pyUpper (pystr "Table" ++ decRepr n) ∉ _uppercase avoid ∧
      ∀ m, 1 ≤ m → m < n → pyUpper (pystr "Table" ++ decRepr m) ∈ _uppercase avoid) ∧
    pick_table_ident none [pystr "TABLE1"] = pystr "Table2" := by
  refine ⟨?_, by decide⟩
  unfold pick_table_ident
  rw [if_pos h]
  obtain ⟨n, h1, h2, h3, h4⟩ := add_suffix_spec (pystr "Table") (_uppercase avoid) 1
  have hsb : suffixBase (pystr "Table") = pystr "Table" := by decide
  rw [hsb] at h2 h3 h4
  exact ⟨n, h1, h2, h3, h4⟩

/-- Witness for C7 at the concrete input of the spec scenario. -/
theorem C7_witness :
    _sanitize_ident none (pystr "T") true = [] ∧
    pick_table_ident none [pystr "TABLE1"] = pystr "Table2" :=
  ⟨by decide, (C7_table_fallback none [pystr "TABLE1"] (by decide)).2⟩

/-- C8: column letter fallback.  Whenever sanitization of the label with
prefix "c" yields the empty string, `pick_col_ident` returns the first
element of the stream A, B, ..., Z, AA, AB, ... whose upper-cased form is
absent from the upper-cased avoid set; the stream is pinned by concrete
values, and the choice depends only on the avoid set (determinism and
restartability: two calls with equal avoid sets agree). -/
theorem C8_letter_fallback (label : Option PyStr) (avoid : List PyStr)
    (h : _sanitize_ident label (pystr "c") false = []) :
    (∃ k, pick_col_ident label avoid = _make_letters k ∧
      pyUpper (_make_letters k) ∉ _uppercase avoid ∧
      ∀ j, j < k → _make_letters j ∈ _uppercase avoid) ∧
    (∀ label2 : Option PyStr, _sanitize_ident label2 (pystr "c") false = [] →
      pick_col_ident label avoid = pick_col_ident label2 avoid) ∧
    _make_letters 0 = pystr "A" ∧ _make_letters 25 = pystr "Z" ∧
    _make_letters 26 = pystr "AA" ∧ _make_letters 27 = pystr "AB" ∧
    _make_letters 701 = pystr "ZZ" ∧ _make_letters 702 = pystr "AAA" := by
  refine ⟨?_, ?_, by decide, by decide, by decide, by decide, by decide, by decide⟩
  · unfold pick_col_ident
    rw [if_pos h]
    obtain ⟨k, h1, h2, h3⟩ := gen_ident_spec (_uppercase avoid)
    rw [uppercase_idem avoid] at h2 h3
    refine ⟨k, h1, ?_, h3⟩
    rw [pyUpper_make_letters k]
    exact h2
  · intro label2 h2
    unfold pick_col_ident
    rw [if_pos h, if_pos h2]

/-- Witness for C8 at a concrete avoid set. -/
theorem C8_witness :
    _sanitize_ident none (pystr "c") false = [] ∧
    (∃ k, pick_col_ident none [pystr "A", pystr "B"] = _make_letters k ∧
      pyUpper (_make_letters k) ∉ _uppercase [pystr "A", pystr "B"] ∧
      ∀ j, j < k → _make_letters j ∈ _uppercase [pystr "A", pystr "B"]) :=
  ⟨by decide, (C8_letter_fallback none [pystr "A", pystr "B"] (by decide)).1⟩

/-- C9 counterexample: sanitization is not idempotent on its own non-empty
output.  The label U+212B ANGSTROM SIGN (code point 8491) sanitizes, in both
configurations, to the single letter Å (197): its name has no "LATIN", so the
NFC branch applies, and NFC maps U+212B to U+00C5, a letter of category Lu.
Re-sanitizing "Å" takes the Latin branch: NFKD decomposes it into A plus a
combining ring, the mark is filtered out, and the result is "A" ≠ "Å". -/
theorem C9_counterexample :
    _sanitize_ident (some [8491]) (pystr "c") false = [197] ∧
    _sanitize_ident (some [197]) (pystr "c") false = [65] ∧
    ([197] : PyStr) ≠ [65] ∧
    _sanitize_ident (some [8491]) (pystr "T") true = [197] ∧
    _sanitize_ident (some [197]) (pystr "T") true = [65] := by
  decide

/-- C9 (amended): sanitization is idempotent from the second application on.
For each public parameter configuration (prefix "T" with capitalization, and
prefix "c" without), for every label whose sanitization s is non-empty,
re-sanitizing twice reaches a fixed point: sanitize(sanitize(s)) =
sanitize(s).  A single application is not always a fixed point
(`C9_counterexample`): the first output can still contain the letter Å,
produced by the NFC branch from U+212B, which the next pass strips to A; one
more pass leaves only normalization-fixed characters. -/
theorem C9_sanitize_idempotent (label : Option PyStr) :
    (_sanitize_ident label (pystr "T") true ≠ [] →
      _sanitize_ident
          (some (_sanitize_ident (some (_sanitize_ident label (pystr "T") true))
            (pystr "T") true)) (pystr "T") true =
        _sanitize_ident (some (_sanitize_ident label (pystr "T") true))
          (pystr "T") true) ∧
    (_sanitize_ident label (pystr "c") false ≠ [] →
      _sanitize_ident
          (some (_sanitize_ident (some (_sanitize_ident label (pystr "c") false))
            (pystr "c") false)) (pystr "c") false =
        _sanitize_ident (some (_sanitize_ident label (pystr "c") false))
          (pystr "c") false) := by
  constructor
  · intro h
    rcases sanitize_props label (pystr "T") true preT_ne
        (fun c hc => NChar_OutChar c (preT_chars c hc)) preT_head with
      h0 | ⟨q1, q2, q3, q4⟩
    · exact absurd h0 h
    rcases sanitize_propsN (_sanitize_ident label (pystr "T") true) (pystr "T") true
        preT_ne preT_chars preT_head q2 with h0 | ⟨r1, r2, r3, r4⟩
    · rw [h0]; decide
    · exact sanitize_fixed (pystr "T") true _ r1 r2 r3 r4
  · intro h
    rcases sanitize_props label (pystr "c") false preC_ne
        (fun c hc => NChar_OutChar c (preC_chars c hc)) preC_head with
      h0 | ⟨q1, q2, q3, q4⟩
    · exact absurd h0 h
    rcases sanitize_propsN (_sanitize_ident label (pystr "c") false) (pystr "c") false
        preC_ne preC_chars preC_head q2 with h0 | ⟨r1, r2, r3, r4⟩
    · rw [h0]; decide
    · exact sanitize_fixed (pystr "c") false _ r1 r2 r3 r4

/-- Witness for C9 at concrete labels, one per configuration, including the
label U+212B on which single-application idempotence fails. -/
theorem C9_witness :
    _sanitize_ident (some [8491]) (pystr "c") false ≠ [] ∧
    _sanitize_ident
        (some (_sanitize_ident (some (_sanitize_ident (some [8491]) (pystr "c") false))
          (pystr "c") false)) (pystr "c") false =
      _sanitize_ident (some (_sanitize_ident (some [8491]) (pystr "c") false))
        (pystr "c") false ∧
    _sanitize_ident (some (pystr "Name")) (pystr "T") true ≠ [] ∧
    _sanitize_ident
        (some (_sanitize_ident
          (some (_sanitize_ident (some (pystr "Name")) (pystr "T") true))
          (pystr "T") true)) (pystr "T") true =
      _sanitize_ident (some (_sanitize_ident (some (pystr "Name")) (pystr "T") true))
        (pystr "T") true :=
  ⟨by decide, (C9_sanitize_idempotent (some [8491])).2 (by decide),
   by decide, (C9_sanitize_idempotent (some (pystr "Name"))).1 (by decide)⟩

/-- C10: no public entry point mutates the caller-supplied avoid set.  In the
heap model each entry point allocates a fresh upper-cased copy of the set
object and `pick_col_ident_list` adds newly chosen identifiers only to that
local copy, so the caller cell at `r` holds exactly its old value after every
call, while the computed results agree with the functional definitions. -/
theorem C10_no_mutation (σ : SetStore) (r : Nat) (label : Option PyStr)
    (idents : List (Option PyStr)) (h : r < σ.length) :
    storeGet (pick_table_ident_st σ r label).1 r = storeGet σ r ∧
    (pick_table_ident_st σ r label).2 = pick_table_ident label (storeGet σ r) ∧
    storeGet (pick_col_ident_st σ r label).1 r = storeGet σ r ∧
    (pick_col_ident_st σ r label).2 = pick_col_ident label (storeGet σ r) ∧
    storeGet (pick_col_ident_list_st σ r idents).1 r = storeGet σ r ∧
    (pick_col_ident_list_st σ r idents).2 = pick_col_ident_list idents (storeGet σ r) := by
  obtain ⟨g0, g1, g2⟩ := list_st_go_spec idents (σ ++ [_uppercase (storeGet σ r)])
    σ.length (by simp)
  refine ⟨storeGet_append σ r h _, rfl, storeGet_append σ r h _, rfl, ?_, ?_⟩
  · unfold pick_col_ident_list_st
    rw [g1 r (by omega), storeGet_append σ r h _]
  · unfold pick_col_ident_list_st
    rw [g2, storeGet_append_last σ _]
    rfl

/-- Witness for C10 at a concrete store. -/
theorem C10_witness :
    0 < ([[pystr "Old"]] : SetStore).length ∧
    storeGet (pick_col_ident_list_st [[pystr "Old"]] 0 [some (pystr "Name")]).1 0 =
      storeGet ([[pystr "Old"]] : SetStore) 0 :=
  ⟨by decide,
    (C10_no_mutation [[pystr "Old"]] 0 none [some (pystr "Name")] (by decide)).2.2.2.2.1⟩
